import Mathlib

/-!
Verification of the PolyWatch tweet-composition engine and posting ledger.

The Python sources (`polywatch.py`, `state_store.py`, `ai_client.py`,
`utils.py`) are shallowly embedded over `Str := List Char`: one Lean
character per Python code point, so `List.length` agrees with Python
`len` (the "display characters" of the spec).

Modelling conventions, stated once here:

* Each Python `re` operation in the source uses a fixed pattern; every
  such operation is embedded as a dedicated recursive function
  implementing exactly that pattern's matching semantics (leftmost
  match, greedy/lazy repetition as written, global substitution
  without rescanning replaced text).
* `\s` and `str.strip`/`str.split()` use Python's whitespace set,
  reproduced verbatim in `pySpaceCodes`; `str.splitlines` uses
  Python's line-boundary set, reproduced in `lineBoundaryCodes`.
* `\w` (used only in the pattern `@Polymarket\w+`) is modelled by
  ASCII alphanumerics plus underscore; Python additionally treats
  non-ASCII letters as word characters, which no statement below
  depends on.
* The float `pnl` reaches the composer only as the formatted string
  `format_usd(abs(pnl))` (and, opaquely, inside the AI prompt), so the
  embedding takes that formatted string `pnl_str` as the parameter and
  theorems quantify over it, covering every float input.
* Real time (`datetime`) is abstracted: `count_since` is parameterised
  by an arbitrary interpretation `parseIso : Str → Int` of timestamps,
  and theorems quantify over it.
-/

set_option maxRecDepth 40000

namespace Polywatch

/-- Strings are modelled as lists of Unicode scalar values, matching
Python strings as sequences of code points. -/
abbrev Str := List Char

/-! ## Python character classes -/

/-- Code points of Python's whitespace set: exactly the characters on
which `str.isspace()` is true, which is also the set matched by `\s`
in Python 3 `re` string patterns. -/
def pySpaceCodes : List Nat :=
  [0x9, 0xA, 0xB, 0xC, 0xD, 0x1C, 0x1D, 0x1E, 0x1F, 0x20, 0x85, 0xA0,
   0x1680, 0x2000, 0x2001, 0x2002, 0x2003, 0x2004, 0x2005, 0x2006,
   0x2007, 0x2008, 0x2009, 0x200A, 0x2028, 0x2029, 0x202F, 0x205F, 0x3000]

/-- Python whitespace test (`str.isspace` / regex `\s`). -/
def isPySpace (c : Char) : Bool := pySpaceCodes.contains c.toNat

/-- Code points at which Python `str.splitlines` breaks a line
(`\r\n` is additionally treated as a single break). -/
def lineBoundaryCodes : List Nat :=
  [0xA, 0xB, 0xC, 0xD, 0x1C, 0x1D, 0x1E, 0x85, 0x2028, 0x2029]

/-- Line-boundary test for `str.splitlines`. -/
def isLineBoundary (c : Char) : Bool := lineBoundaryCodes.contains c.toNat

/-- Word-character test for regex `\w`: ASCII letters, digits and
underscore (Python also counts non-ASCII letters; see the header). -/
def isWordChar (c : Char) : Bool := c.isAlphanum || c = '_'

/-- Sentence-terminating punctuation, the class `[.!?]`. -/
def isTermPunct (c : Char) : Bool := c = '.' || c = '!' || c = '?'

/-! ## Python string primitives -/

/-- Python `str.lstrip()`. -/
def pyLstrip (s : Str) : Str := s.dropWhile isPySpace

/-- Python `str.rstrip()`. -/
def pyRstrip (s : Str) : Str := (s.reverse.dropWhile isPySpace).reverse

/-- Python `str.strip()`. -/
def pyStrip (s : Str) : Str := pyRstrip (pyLstrip s)

/-- Auxiliary scanner for `pySplitlines`; `cur` holds the current line
reversed.  A terminal line boundary ends the last line without
starting an empty new one, as in Python. -/
def splitlinesGo : Nat → Str → Str → List Str
  | 0, cur, s => [cur.reverse ++ s]
  | _ + 1, cur, [] => [cur.reverse]
  | fuel + 1, cur, c :: rest =>
      if isLineBoundary c then
        let rest2 := if c = '\r' ∧ rest.head? = some '\n' then rest.tail else rest
        cur.reverse :: (if rest2.isEmpty then [] else splitlinesGo fuel [] rest2)
      else splitlinesGo fuel (c :: cur) rest

/-- Python `str.splitlines()`. -/
def pySplitlines (s : Str) : List Str :=
  if s.isEmpty then [] else splitlinesGo (s.length + 1) [] s

/-- Auxiliary scanner for `pySplitWs`. -/
def splitWsGo (cur : Str) : Str → List Str
  | [] => if cur.isEmpty then [] else [cur.reverse]
  | c :: rest =>
      if isPySpace c then
        if cur.isEmpty then splitWsGo [] rest
        else cur.reverse :: splitWsGo [] rest
      else splitWsGo (c :: cur) rest

/-- Python `str.split()` with no argument: split on whitespace runs,
discarding empty pieces. -/
def pySplitWs (s : Str) : List Str := splitWsGo [] s

/-- Auxiliary scanner for `pySplitCh`. -/
def splitChGo (ch : Char) (cur : Str) : Str → List Str
  | [] => [cur.reverse]
  | c :: rest =>
      if c = ch then cur.reverse :: splitChGo ch [] rest
      else splitChGo ch (c :: cur) rest

/-- Python `str.split(ch)` on a single-character separator, keeping
empty pieces (`"".split(ch) == [""]`). -/
def pySplitCh (ch : Char) (s : Str) : List Str := splitChGo ch [] s

/-- Join a list of strings with a separator, as Python `sep.join`. -/
def joinSep (sep : Str) : List Str → Str
  | [] => []
  | [x] => x
  | x :: y :: rest => x ++ sep ++ joinSep sep (y :: rest)

/-- Python `"\n".join`. -/
def joinNL (l : List Str) : Str := joinSep ['\n'] l

/-- Python `" ".join`. -/
def joinSpace (l : List Str) : Str := joinSep [' '] l

/-- Python substring test `needle in hay`. -/
def isSubstr (needle : Str) : Str → Bool
  | [] => needle.isEmpty
  | c :: rest => needle.isPrefixOf (c :: rest) || isSubstr needle rest

/-- Scanner for `countSub`.  Every scanner in this file that advances
by more than one character at a time is written with an explicit fuel
parameter that strictly exceeds the length of the scanned string, so
that the recursion is structural; the fuel-zero fallback is never
reached from the public wrapper. -/
def countSubGo (needle : Str) : Nat → Str → Nat
  | 0, _ => 0
  | _ + 1, [] => 0
  | fuel + 1, c :: rest =>
      if needle ≠ [] ∧ needle.isPrefixOf (c :: rest) = true then
        1 + countSubGo needle fuel ((c :: rest).drop needle.length)
      else countSubGo needle fuel rest

/-- Python `hay.count(needle)`: number of non-overlapping occurrences,
scanning left to right. -/
def countSub (needle hay : Str) : Nat := countSubGo needle (hay.length + 1) hay

/-- Prefix of `s` before its last literal space; the source only calls
`mk.rsplit(" ", 1)[0]` under the guard `" " in mk`, where this is its
value. -/
def rsplitSpaceLeft (s : Str) : Str :=
  ((s.reverse.dropWhile (fun c => c ≠ ' ')).drop 1).reverse

/-! ## Embedded regex operations

Each function implements one fixed `re` pattern from the source, with
Python's leftmost-match, greedy/lazy and global-substitution
(no rescanning of replaced text) semantics.  Scanners use the fuel
discipline described at `countSubGo`. -/

/-- Case-insensitive prefix test, Python `re.IGNORECASE` matching of a
literal (ASCII case folding, as in all patterns used by the source). -/
def isPrefixOfCI : Str → Str → Bool
  | [], _ => true
  | _ :: _, [] => false
  | p :: ps, c :: cs => (p.toLower = c.toLower) && isPrefixOfCI ps cs

/-- Case-insensitive suffix test. -/
def endsWithCI (pat s : Str) : Bool := isPrefixOfCI pat.reverse s.reverse

/-- Consume a case-insensitive literal, returning the remainder. -/
def dropPrefixCI (pat s : Str) : Option Str :=
  if isPrefixOfCI pat s then some (s.drop pat.length) else none

/-- Consume `\s+` (a nonempty maximal whitespace run), returning the
remainder. -/
def wsPlus (s : Str) : Option Str :=
  if (s.takeWhile isPySpace).isEmpty then none
  else some (s.dropWhile isPySpace)

/-- The canonical mention token `@Polymarket`. -/
def mentionTok : Str := "@Polymarket".data

/-- Scanner for `re.split(r"(?<=[.!?])\s+", s)`: split after each
maximal whitespace run immediately preceded by `[.!?]`, the run being
consumed; `cur` holds the piece built so far, reversed. -/
def sentSplitGo : Nat → Str → Str → List Str
  | 0, cur, s => [cur.reverse ++ s]
  | _ + 1, cur, [] => [cur.reverse]
  | _ + 1, cur, [c] => [(c :: cur).reverse]
  | fuel + 1, cur, c :: d :: rest =>
      if isTermPunct c && isPySpace d then
        (c :: cur).reverse :: sentSplitGo fuel [] ((d :: rest).dropWhile isPySpace)
      else sentSplitGo fuel (c :: cur) (d :: rest)

/-- Models `re.split(r"(?<=[.!?])\s+", s)` (on the empty string Python
returns `[""]`). -/
def sentSplit (s : Str) : List Str := sentSplitGo (s.length + 1) [] s

/-- Models `re.match(r"^(.*?)([.!?]+)$", s)`: `some (base, punct)` with
`punct` the maximal nonempty trailing `[.!?]` run, provided the rest
contains no newline (`.` does not match `\n`); `$` also matches just
before one final newline. -/
def matchTrailingPunct (s : Str) : Option (Str × Str) :=
  let s1 := if s.getLast? = some '\n' then s.dropLast else s
  let punct := (s1.reverse.takeWhile isTermPunct).reverse
  let base := (s1.reverse.dropWhile isTermPunct).reverse
  if punct.isEmpty || base.contains '\n' then none else some (base, punct)

/-- Models `re.sub(r"\s+on\s*$", "", s, flags=re.IGNORECASE)`: the
(unique, leftmost) match removes the final case-insensitive `on`, the
whole whitespace run before it and any whitespace after it; no match
leaves `s` unchanged. -/
def stripTrailingOn (s : Str) : Str :=
  let s1 := pyRstrip s
  if endsWithCI "on".data s1 then
    let A2 := (s1.reverse.drop 2).reverse
    let A := pyRstrip A2
    if A = A2 then s else A
  else s

/-- Models `re.sub(r"(?i)(?<!@Polymarket)\s+on\s*$", "", s)`: as
`stripTrailingOn`, except that when the text before the whitespace run
ends with the (case-insensitive) mention token the match can only start
one character into the run — so a single-character run blocks the
removal entirely, and a longer run keeps its first character. -/
def dropTrailOnUnlessTok (s : Str) : Str :=
  let s1 := pyRstrip s
  if endsWithCI "on".data s1 then
    let A2 := (s1.reverse.drop 2).reverse
    let A := pyRstrip A2
    if A = A2 then s
    else
      if endsWithCI "@polymarket".data A then
        match A2.drop A.length with
        | w0 :: _ :: _ => A ++ [w0]
        | _ => s
      else A
  else s

/-- Scanner for `canonVariants`. -/
def canonVariantsGo : Nat → Str → Str
  | 0, s => s
  | _ + 1, [] => []
  | fuel + 1, c :: rest =>
      if mentionTok.isPrefixOf (c :: rest) then
        let after := (c :: rest).drop mentionTok.length
        let w := after.takeWhile isWordChar
        if w.isEmpty then c :: canonVariantsGo fuel rest
        else mentionTok ++ canonVariantsGo fuel (after.drop w.length)
      else c :: canonVariantsGo fuel rest

/-- Models `re.sub(r"@Polymarket\w+", "@Polymarket", s)` (case
sensitive): each occurrence of the token followed by at least one word
character has that word-character run deleted. -/
def canonVariants (s : Str) : Str := canonVariantsGo (s.length + 1) s

/-- Scanner for `removeMention`. -/
def removeMentionGo : Nat → Str → Str
  | 0, s => s
  | _ + 1, [] => []
  | fuel + 1, c :: rest =>
      if mentionTok.isPrefixOf (c :: rest) then
        removeMentionGo fuel (((c :: rest).drop mentionTok.length).dropWhile isPySpace)
      else c :: removeMentionGo fuel rest

/-- Models `re.sub(r"@Polymarket\s*", "", s)`: each occurrence of the
token plus any following whitespace is deleted; scanning continues in
the original remainder (no rescan of spliced text). -/
def removeMention (s : Str) : Str := removeMentionGo (s.length + 1) s

/-- Scanner for `fixSpaceDotSpace`. -/
def fixSpaceDotSpaceGo : Nat → Str → Str
  | 0, s => s
  | _ + 1, [] => []
  | fuel + 1, c :: rest =>
      if isPySpace c then
        match (c :: rest).dropWhile isPySpace with
        | '.' :: rest2 =>
            if (rest2.takeWhile isPySpace).isEmpty then
              c :: fixSpaceDotSpaceGo fuel rest
            else '.' :: ' ' :: fixSpaceDotSpaceGo fuel (rest2.dropWhile isPySpace)
        | _ => c :: fixSpaceDotSpaceGo fuel rest
      else c :: fixSpaceDotSpaceGo fuel rest

/-- Models `re.sub(r"\s+\.\s+", ". ", s)`. -/
def fixSpaceDotSpace (s : Str) : Str := fixSpaceDotSpaceGo (s.length + 1) s

/-- Scanner for `fixSpaceDot`. -/
def fixSpaceDotGo : Nat → Str → Str
  | 0, s => s
  | _ + 1, [] => []
  | fuel + 1, c :: rest =>
      if isPySpace c then
        match (c :: rest).dropWhile isPySpace with
        | '.' :: rest2 => '.' :: fixSpaceDotGo fuel rest2
        | _ => c :: fixSpaceDotGo fuel rest
      else c :: fixSpaceDotGo fuel rest

/-- Models `re.sub(r"\s+\.", ".", s)`. -/
def fixSpaceDot (s : Str) : Str := fixSpaceDotGo (s.length + 1) s

/-- Scanner for `subOnBeforePunct`. -/
def subOnBeforePunctGo : Nat → Str → Str
  | 0, s => s
  | _ + 1, [] => []
  | fuel + 1, c :: rest =>
      if isPySpace c then
        if isPrefixOfCI "on".data ((c :: rest).dropWhile isPySpace) then
          match (((c :: rest).dropWhile isPySpace).drop 2).dropWhile isPySpace with
          | p :: rest3 =>
              if isTermPunct p then
                (((c :: rest).dropWhile isPySpace).drop 2).takeWhile isPySpace
                  ++ p :: subOnBeforePunctGo fuel rest3
              else c :: subOnBeforePunctGo fuel rest
          | [] => c :: subOnBeforePunctGo fuel rest
        else c :: subOnBeforePunctGo fuel rest
      else c :: subOnBeforePunctGo fuel rest

/-- Models `re.sub(r"\s+on(\s*[.!?])", r"\1", s, flags=re.IGNORECASE)`:
a whitespace run followed by `on`, optional whitespace and one
`[.!?]` is replaced by the kept group (the optional whitespace and the
punctuation character). -/
def subOnBeforePunct (s : Str) : Str := subOnBeforePunctGo (s.length + 1) s

/-- Scanner for `collapseWs`. -/
def collapseWsGo : Nat → Str → Str
  | 0, s => s
  | _ + 1, [] => []
  | fuel + 1, c :: rest =>
      if isPySpace c then ' ' :: collapseWsGo fuel (rest.dropWhile isPySpace)
      else c :: collapseWsGo fuel rest

/-- Models `re.sub(r"\s+", " ", s)`: each maximal whitespace run
becomes a single space. -/
def collapseWs (s : Str) : Str := collapseWsGo (s.length + 1) s

/-- Matcher for `\bon\s+on\s+@Polymarket\b` (case-insensitive) at the
start of `s`, the leading word boundary being checked by the caller;
returns the remainder after the match, whose first character must not
be a word character (trailing `\b`). -/
def matchOnOnTok (s : Str) : Option Str :=
  (dropPrefixCI "on".data s).bind fun s1 =>
  (wsPlus s1).bind fun s2 =>
  (dropPrefixCI "on".data s2).bind fun s3 =>
  (wsPlus s3).bind fun s4 =>
  (dropPrefixCI "@polymarket".data s4).bind fun s5 =>
  match s5 with
  | [] => some []
  | d :: _ => if isWordChar d then none else some s5

/-- Scanner for `fixOnOn`; `prevW` records whether the previous
character is a word character (for the leading `\b`). -/
def fixOnOnGo : Nat → Bool → Str → Str
  | 0, _, s => s
  | _ + 1, _, [] => []
  | fuel + 1, prevW, c :: rest =>
      if prevW = false then
        match matchOnOnTok (c :: rest) with
        | some s5 => "on @Polymarket".data ++ fixOnOnGo fuel true s5
        | none => c :: fixOnOnGo fuel (isWordChar c) rest
      else c :: fixOnOnGo fuel (isWordChar c) rest

/-- Models `re.sub(r"\bon\s+on\s+@Polymarket\b", "on @Polymarket", s,
flags=re.IGNORECASE)`. -/
def fixOnOn (s : Str) : Str := fixOnOnGo (s.length + 1) false s

/-- Matcher for `vs\.?\s+on @Polymarket\b` (case-insensitive) at the
start of `s`; the leading `\b` is checked by the caller.  The greedy
`\.?` tries consuming a dot first and backtracks; the literal space in
the pattern matches exactly one space character. -/
def vsTailFrom (t : Str) : Option Str :=
  (wsPlus t).bind fun t1 =>
  (dropPrefixCI "on @polymarket".data t1).bind fun t2 =>
  match t2 with
  | [] => some []
  | d :: _ => if isWordChar d then none else some t2

/-- Continuation of `matchVsTail` past the literal `vs`. -/
def matchVsTail (s : Str) : Option Str :=
  (dropPrefixCI "vs".data s).bind fun s1 =>
  if s1.head? = some '.' then
    match vsTailFrom s1.tail with
    | some r => some r
    | none => vsTailFrom s1
  else vsTailFrom s1

/-- Lazy scan for `[^.!?]*?` followed by `\bvs\.?\s+on @Polymarket\b`:
try the tail match at each position (shortest middle first), extending
the middle one non-`[.!?]` character at a time; `prevW` tracks the
word boundary. -/
def vsMiddleGo : Nat → Bool → Str → Option Str
  | 0, _, _ => none
  | fuel + 1, prevW, s =>
      match (if prevW = false then matchVsTail s else none) with
      | some r => some r
      | none =>
          match s with
          | [] => none
          | c :: rest =>
              if isTermPunct c then none
              else vsMiddleGo fuel (isWordChar c) rest

/-- Scanner for `vsFix1`. -/
def vsFix1Go (market : Str) : Nat → Bool → Str → Str
  | 0, _, s => s
  | _ + 1, _, [] => []
  | fuel + 1, prevW, c :: rest =>
      if prevW = false then
        match (dropPrefixCI "on".data (c :: rest)).bind
            (fun s1 => (wsPlus s1).bind
            (fun s2 => vsMiddleGo (s2.length + 1) false s2)) with
        | some r =>
            "on ".data ++ market ++ " on @Polymarket".data
              ++ vsFix1Go market fuel true r
        | none => c :: vsFix1Go market fuel (isWordChar c) rest
      else c :: vsFix1Go market fuel (isWordChar c) rest

/-- Models `re.sub(r"\bon\s+[^.!?]*?\bvs\.?\s+on @Polymarket\b",
f"on (market) on @Polymarket", s, flags=re.IGNORECASE)`. -/
def vsFix1 (market s : Str) : Str := vsFix1Go market (s.length + 1) false s

/-- Scanner for `vsFix2`. -/
def vsFix2Go (market : Str) : Nat → Bool → Str → Str
  | 0, _, s => s
  | _ + 1, _, [] => []
  | fuel + 1, prevW, c :: rest =>
      if prevW = false then
        match matchVsTail (c :: rest) with
        | some r =>
            market ++ " on @Polymarket".data ++ vsFix2Go market fuel true r
        | none => c :: vsFix2Go market fuel (isWordChar c) rest
      else c :: vsFix2Go market fuel (isWordChar c) rest

/-- Models `re.sub(r"\bvs\.?\s+on @Polymarket\b",
f"(market) on @Polymarket", s, flags=re.IGNORECASE)`. -/
def vsFix2 (market s : Str) : Str := vsFix2Go market (s.length + 1) false s

/-! ## The text normalizer `_sanitize_ai_text` (`polywatch.py`) -/

/-- Models `_sanitize_ai_text` from `polywatch.py`: normalize line
endings, canonicalize and remove mention-token occurrences, clean up
artifacts, then append `on @Polymarket` to the first sentence. -/
def _sanitize_ai_text (text : Str) : Str :=
  let t0 := text.filter (fun c => c ≠ '\r')
  let t1 := joinNL ((pySplitCh '\n' t0).map pyRstrip)
  let t2 := canonVariants t1
  let t3 := removeMention t2
  let t4 := fixSpaceDotSpace t3
  let t5 := fixSpaceDot t4
  let t6 := subOnBeforePunct t5
  let t7 := pyStrip (collapseWs t6)
  let sentences := if t7.isEmpty then [] else sentSplit t7
  let t8 := match sentences with
    | [] => "on @Polymarket".data
    | s0 :: restS =>
        match matchTrailingPunct s0 with
        | some (base, punct) =>
            let base2 := stripTrailingOn (pyRstrip base)
            joinSpace ((base2 ++ " on @Polymarket".data ++ punct) :: restS)
        | none =>
            let s0a := stripTrailingOn (pyRstrip s0)
            joinSpace ((s0a ++ " on @Polymarket".data) :: restS)
  let t9 := fixOnOn t8
  dropTrailOnUnlessTok t9

/-! ## The message composer `apply_footer_and_trim` (`polywatch.py`) -/

/-- The footer constant `FOOTER = "\nBuilt by @ForgeLabs__"`. -/
def FOOTER : Str := "\nBuilt by @ForgeLabs__".data

/-- The call-to-action constant `CTA`. -/
def CTA : Str := "Copy trade via TG alerts: https://tinyurl.com/3fe62ksz".data

/-- The hard length budget `MAX_TWEET_LEN = 280`. -/
def MAX_TWEET_LEN : Nat := 280

/-- The money-bag glyph `\U0001F4B0`. -/
def money_bag : Char := '💰'

/-- The chart glyph `\U0001F4CA`. -/
def chart_up : Char := '📊'

/-- The link glyph `\U0001F517`. -/
def link_emoji : Char := '🔗'

/-- Models `utils.short_wallet`. -/
def short_wallet (addr : Str) : Str :=
  if addr.isEmpty || addr.length < 10 then addr
  else addr.take 6 ++ ['…'] ++ addr.drop (addr.length - 4)

/-- The text inserted to tie the first sentence to the mention token. -/
def onTok : Str := " on @Polymarket".data

/-- Insertion step of `apply_footer_and_trim` (lines 62-70): place
`on @Polymarket` before the terminal punctuation of the first
sentence, stripping a dangling `on` first. -/
def insertTokSent (s0 : Str) : Str :=
  match matchTrailingPunct s0 with
  | some (base, punct) => stripTrailingOn (pyRstrip base) ++ onTok ++ punct
  | none => stripTrailingOn (pyRstrip s0) ++ onTok

/-- The `ai_line` computation of `apply_footer_and_trim` (lines
56-78): collapse the text to one line, ensure the first sentence
carries the mention token, then apply the two `vs` heuristics when a
market title is available. -/
def aiLineOf (text market : Str) : Str :=
  let ai0 := joinSpace (pySplitlines (pyStrip text))
  let ai1 :=
    if ai0.isEmpty then "on @Polymarket".data
    else
      match sentSplit ai0 with
      | [] => "on @Polymarket".data
      | s0 :: restS =>
          let s0new := if isSubstr mentionTok s0 then s0 else insertTokSent s0
          joinSpace (s0new :: restS)
  if market.isEmpty then ai1 else vsFix2 market (vsFix1 market ai1)

/-- The line `f"(money_bag) (pnl_str) on (outcome)"`. -/
def money_line (pnl_str outcome : Str) : Str :=
  money_bag :: ' ' :: (pnl_str ++ " on ".data ++ outcome)

/-- The line `f"(chart_up) Market: (market)"`. -/
def market_line (market : Str) : Str :=
  chart_up :: ' ' :: ("Market: ".data ++ market)

/-- The profile link `f"https://polymarket.com/profile/(wallet)"`. -/
def profile_link (wallet : Str) : Str :=
  "https://polymarket.com/profile/".data ++ wallet

/-- Models the inner `build_lines` of `apply_footer_and_trim`. -/
def build_lines (pnl_str outcome market wallet : Str) (ai : Str) : List Str :=
  ([pyStrip ai, [], money_line pnl_str outcome, market_line market]
      ++ (if wallet.isEmpty then []
          else [[], [link_emoji], profile_link wallet]))
    ++ [[], FOOTER, CTA]

/-- Models the inner `build_lines_compact` of `apply_footer_and_trim`. -/
def build_lines_compact (pnl_str outcome market wallet : Str) (ai : Str) :
    List Str :=
  ([pyStrip ai, money_line pnl_str outcome, market_line market]
      ++ (if wallet.isEmpty then []
          else [[link_emoji], profile_link wallet]))
    ++ [FOOTER, CTA]

/-- The sentence-prefix candidate `" ".join(sentences[:i]).strip()`. -/
def candidateAt (sentences : List Str) (i : Nat) : Str :=
  pyStrip (joinSpace (sentences.take i))

/-- The full layout attempted for the first `i` sentences (source line
124): `"\n".join(build_lines(candidate_ai))`. -/
def layoutAt (pnl_str outcome market wallet : Str) (sentences : List Str)
    (i : Nat) : Str :=
  joinNL (build_lines pnl_str outcome market wallet (candidateAt sentences i))

/-- The sentence list of the composer (source line 120):
`re.split(r"(?<=[.!?])\s+", ai_line) if ai_line else []`. -/
def sentencesOf (text market : Str) : List Str :=
  if (aiLineOf text market).isEmpty then [] else sentSplit (aiLineOf text market)

/-- The sentence-truncation loop of `apply_footer_and_trim` (lines
121-128): for `i = 1, 2, ...` record the layout while it fits, and
stop at the first `i` that does not; `k` is the number of iterations
left. -/
def bestFitGo (f : Nat → Str) : Nat → Nat → Option Str → Option Str
  | 0, _, best => best
  | k + 1, i, best =>
      if (f i).length ≤ MAX_TWEET_LEN then bestFitGo f k (i + 1) (some (f i))
      else best

/-- Result `best` of the sentence-truncation loop over
`i in range(1, n + 1)`. -/
def bestFit (f : Nat → Str) (n : Nat) : Option Str := bestFitGo f n 1 none

/-- The word-dropping market-shrink loops of `apply_footer_and_trim`
(lines 142-150, 153-162 and 200-208): while more than `minWords` words
remain, try the compact layout with line 2 replaced by the market line
for the remaining words, returning on the first fit and dropping the
last word otherwise.  `lines` is the compact layout rebuilt identically
on every source iteration. -/
def shrinkWordsGo (lines : List Str) (minWords : Nat) : Nat → List Str → Option Str
  | 0, _ => none
  | fuel + 1, words =>
      if words.length > minWords then
        let crafted := joinNL (lines.set 2 (market_line (joinSpace words)))
        if crafted.length ≤ MAX_TWEET_LEN then some crafted
        else shrinkWordsGo lines minWords fuel words.dropLast
      else none

/-- The last-resort loop of `apply_footer_and_trim` (lines 212-223):
repeatedly set line 2 to the right-stripped market line for `mk`,
return on fit, and otherwise drop the last space-separated chunk of
`mk`, or its last character when it has no space, until `mk` is empty. -/
def lastResortGo (lines : List Str) : Nat → Str → Option Str
  | 0, _ => none
  | fuel + 1, mk =>
      let crafted := joinNL (lines.set 2 (pyRstrip (market_line mk)))
      if crafted.length ≤ MAX_TWEET_LEN then some crafted
      else if mk.isEmpty then none
      else if mk.contains ' ' then lastResortGo lines fuel (rsplitSpaceLeft mk)
      else lastResortGo lines fuel mk.dropLast

/-- State of `lines_c` after the last-resort loop exits without
returning: line 2 was last set with `mk = ""`. -/
def lastResortLines (lines : List Str) : List Str :=
  lines.set 2 (pyRstrip (market_line []))

/-- The prefix `f"(chart_up) "` used by the line-dropping filters. -/
def chartPrefix : Str := [chart_up, ' ']

/-- The prefix `f"(money_bag) "` used by the line-dropping filters. -/
def moneyPrefix : Str := [money_bag, ' ']

/-- The constant body `"Massive move. @Polymarket"`. -/
def minimal_ai : Str := "Massive move. @Polymarket".data

/-- The constant body `"Trader on @Polymarket"`. -/
def tiny_ai : Str := "Trader on @Polymarket".data

/-- The absolute hard-truncation fallback of `apply_footer_and_trim`
(source lines 243-247): the assembled tiny layout cut to the budget,
built over the line list left after the last-resort loop and the three
post-loop line drops.  This is the only return that may cut text
mid-way. -/
def truncationFallback (pnl_str outcome market wallet : Str) : Str :=
  let linesCM := build_lines_compact pnl_str outcome market wallet minimal_ai
  let lines_no_emoji2 :=
    (((lastResortLines linesCM).filter
        (fun ln => !(chartPrefix.isPrefixOf ln))).filter
      (fun ln => !(moneyPrefix.isPrefixOf ln))).filter
      (fun ln => ln != [link_emoji])
  let tailLines := match lines_no_emoji2 with
    | [] => []
    | h :: _ => lines_no_emoji2.filter (fun ln => ln != h)
  (joinNL (tiny_ai :: tailLines)).take MAX_TWEET_LEN

/-- One `return`-guard of the source: produce the candidate when it
fits the budget, nothing otherwise. -/
def fitOpt (s : Str) : Option Str :=
  if s.length ≤ MAX_TWEET_LEN then some s else none

/-- The compact-layout attempt with the first sentence (source lines
133-137), guarded by `if first_sentence:`. -/
def stepCompact1 (first_sentence : Str) (linesC : List Str) : Option Str :=
  if first_sentence.isEmpty then none else fitOpt (joinNL linesC)

/-- One of the two word-dropping market-shrink blocks with the first
sentence (source lines 141-151 with `minWords = 3`, lines 153-162 with
`minWords = 0`), guarded by `if first_sentence:`. -/
def stepShrink (first_sentence : Str) (lines : List Str) (minWords : Nat)
    (words : List Str) : Option Str :=
  if first_sentence.isEmpty then none
  else shrinkWordsGo lines minWords (words.length + 1) words

/-- The line-dropping cascade with the first sentence (source lines
164-191): drop the chart line, then the link glyph, then shrink the
body to an identity, then drop the money line, returning at the first
fit. -/
def stepLineDrops (first_sentence : Str)
    (lines_no_chart lines_no_emoji lines_shrink lines_no_money : List Str) :
    Option Str :=
  if first_sentence.isEmpty then none
  else
    fitOpt (joinNL lines_no_chart) <|> fitOpt (joinNL lines_no_emoji) <|>
      fitOpt (joinNL lines_shrink) <|> fitOpt (joinNL lines_no_money)

/-- Models `apply_footer_and_trim` from `polywatch.py` (lines 46-247),
with `pnl_str = format_usd(abs(pnl))` passed as a string (see the file
header).  Each `match ... with | some r => r | none => ...` mirrors one
`return`-guarded block of the source. -/
def apply_footer_and_trim (text wallet pnl_str market outcome : Str) : Str :=
  let ai_line := aiLineOf text market
  let crafted := joinNL (build_lines pnl_str outcome market wallet ai_line)
  if crafted.length ≤ MAX_TWEET_LEN then crafted
  else
    let sentences := if ai_line.isEmpty then [] else sentSplit ai_line
    match bestFit (layoutAt pnl_str outcome market wallet sentences)
        sentences.length with
    | some best => best
    | none =>
      let first_sentence := match sentences with
        | s0 :: _ => pyStrip s0
        | [] => pyStrip ((pySplitCh '.' ai_line).headI)
      let linesC := build_lines_compact pnl_str outcome market wallet first_sentence
      match stepCompact1 first_sentence linesC with
      | some r => r
      | none =>
        let words := pySplitWs market
        match stepShrink first_sentence linesC 3 words with
        | some r => r
        | none =>
          match stepShrink first_sentence linesC 0 words with
          | some r => r
          | none =>
            let lines_no_chart :=
              linesC.filter (fun ln => !(chartPrefix.isPrefixOf ln))
            let lines_no_emoji :=
              lines_no_chart.filter (fun ln => ln != [link_emoji])
            let identity_only :=
              if !wallet.isEmpty && isSubstr (short_wallet wallet) first_sentence
              then short_wallet wallet ++ onTok
              else tiny_ai
            let lines_shrink := identity_only :: lines_no_emoji.tail
            let lines_no_money :=
              lines_no_emoji.filter (fun ln => !(moneyPrefix.isPrefixOf ln))
            match stepLineDrops first_sentence lines_no_chart lines_no_emoji
                lines_shrink lines_no_money with
            | some r => r
            | none =>
              let linesCM :=
                build_lines_compact pnl_str outcome market wallet minimal_ai
              match fitOpt (joinNL linesCM) with
              | some r => r
              | none =>
                match shrinkWordsGo linesCM 0 (words.length + 1) words with
                | some r => r
                | none =>
                  match lastResortGo linesCM (market.length + 1) market with
                  | some r => r
                  | none =>
                    let linesAfter := lastResortLines linesCM
                    let lines_no_chart2 :=
                      linesAfter.filter (fun ln => !(chartPrefix.isPrefixOf ln))
                    match fitOpt (joinNL lines_no_chart2) with
                    | some r => r
                    | none =>
                      let lines_no_money2 :=
                        lines_no_chart2.filter
                          (fun ln => !(moneyPrefix.isPrefixOf ln))
                      match fitOpt (joinNL lines_no_money2) with
                      | some r => r
                      | none =>
                        let lines_no_emoji2 :=
                          lines_no_money2.filter (fun ln => ln != [link_emoji])
                        match fitOpt (joinNL lines_no_emoji2) with
                        | some r => r
                        | none =>
                          truncationFallback pnl_str outcome market wallet

/-! ## The tweet formatter `format_tweet` (`polywatch.py`) and the AI
client (`ai_client.py`) -/

/-- Python truthiness-based `or` on an optional string with a default:
`x or d` picks `d` when `x` is `None` or empty. -/
def pyOr (o : Option Str) (d : Str) : Str :=
  match o with
  | some s => if s.isEmpty then d else s
  | none => d

/-- The fields of a position row consumed by `format_tweet`
(`realizedPnl` enters only as the formatted `pnl_str`; see the file
header). -/
structure Row where
  title : Option Str
  slug : Option Str
  outcome : Option Str
  oppositeOutcome : Option Str
  proxyWallet : Option Str

/-- The two profile lookups of `PolymarketClient` used by
`format_tweet`, abstracted as oracles (they are network calls). -/
structure PMClient where
  get_twitter_handle : Str → Option Str
  lookup_profile_name : Str → Option Str

/-- State of `ai_client.AIClient`: the credential, and the outcome of
the network completion call abstracted as an oracle from the prompt
inputs (`none` also covers a missing `requests` module, transport
errors, malformed responses and empty completions, all of which the
source turns into `None`). -/
structure AIClient where
  api_key : Str
  response : Str → Str → Str → Str → Option Str

/-- Models `AIClient.generate_tweet`: `if not self.api_key: return
None`, otherwise the network outcome. -/
def AIClient.generate_tweet (cl : AIClient) (wallet pnl_str market outcome : Str) :
    Option Str :=
  if cl.api_key.isEmpty then none
  else cl.response wallet pnl_str market outcome

/-- The display-name resolution of `format_tweet` (lines 296-307):
X handle, then profile name, then shortened wallet, with Python
truthiness at each step. -/
def display_name_of (client : Option PMClient) (full_wallet : Str) : Str :=
  let dn : Option Str :=
    match client with
    | none => none
    | some cl =>
        match cl.get_twitter_handle full_wallet with
        | some h =>
            if h.isEmpty then cl.lookup_profile_name full_wallet
            else some ('@' :: h)
        | none => cl.lookup_profile_name full_wallet
  match dn with
  | some d => if d.isEmpty then short_wallet full_wallet else d
  | none => short_wallet full_wallet

/-- The fixed fallback body of `format_tweet` (line 317). -/
def fallbackTemplate (display_name title : Str) : Str :=
  display_name ++ " just made a big move on ".data ++ title
    ++ " on @Polymarket! 🎯".data

/-- Models `format_tweet` from `polywatch.py` (lines 288-319). -/
def format_tweet (ai : AIClient) (wallet : Str) (row : Row)
    (client : Option PMClient) (pnl_str : Str) : Str :=
  let title := pyOr row.title (pyOr row.slug "a market".data)
  let outcome := pyOr row.outcome (pyOr row.oppositeOutcome "?".data)
  let full_wallet := if wallet.isEmpty then row.proxyWallet.getD [] else wallet
  let display_name := display_name_of client full_wallet
  let base := match ai.generate_tweet display_name pnl_str title outcome with
    | some t => t
    | none => fallbackTemplate display_name title
  apply_footer_and_trim base full_wallet pnl_str title outcome

/-! ## Deduplication ledger (`state_store.py`) -/

/-- One entry of the posted ledger, the shape
`{"id": ..., "tweet_id": ..., "timestamp": ...}` appended by
`PostedCache.add`. -/
structure PostedItem where
  id : Str
  tweet_id : Option Str
  timestamp : Str

/-- State of `state_store.PostedCache`: the `items` list and the
membership index `_ids`.  Python's `_ids` is a set; it is modelled as
the list of ids, used only through membership, which coincides with
set membership. -/
structure PostedCache where
  items : List PostedItem
  ids : List Str

/-- Models `PostedCache.__init__`: `raw = load_json(path, {"items": []})`;
`load_json` returns the default both when the file is missing and when
`json.load` raises (corrupt file), so both situations are `none` here.
Then `items = raw.get("items", [])` and
`_ids = {item.get("id") for item in items}`. -/
def PostedCache.init (raw : Option (List PostedItem)) : PostedCache :=
  let its : List PostedItem := match raw with
    | none => []
    | some l => l
  { items := its, ids := its.map (fun it => it.id) }

/-- Models `PostedCache.contains`. -/
def PostedCache.contains (c : PostedCache) (uid : Str) : Bool :=
  c.ids.contains uid

/-- Models `PostedCache.add` (the `save_json` persistence side effect
is outside the state model; `now_utc_iso()` is the `ts` parameter). -/
def PostedCache.add (c : PostedCache) (uid : Str) (tid : Option Str) (ts : Str) :
    PostedCache :=
  { items := c.items ++ [{ id := uid, tweet_id := tid, timestamp := ts }],
    ids := c.ids ++ [uid] }

/-- Models `PostedCache.count_since`, parameterised by an arbitrary
interpretation `parseIso` of timestamp strings as comparable instants
(`utils.parse_iso` returns `datetime` values, compared with `>=`). -/
def PostedCache.count_since (parseIso : Str → Int) (c : PostedCache)
    (iso_start : Str) : Nat :=
  (c.items.filter (fun it => parseIso iso_start ≤ parseIso it.timestamp)).length

/-- Membership index invariant of `PostedCache`: `contains` answers
exactly "some ledger entry has this id". -/
def PostedCache.Inv (c : PostedCache) : Prop :=
  ∀ uid : Str, c.contains uid = true ↔ ∃ it ∈ c.items, it.id = uid

/-- The fixed prefix `f"(chart_up) Market: "` of every market line, used to
recognise the market line among the output lines (C6). -/
def marketLinePrefix : Str := chart_up :: ' ' :: "Market: ".data

/-- An output-line list element is good for C6 when it cannot start a
chart-emoji line at all, or is a market line displaying a whole-word
prefix of the market title. -/
def GoodEl (market el : Str) : Prop :=
  chart_up ∉ el ∨
    ('\n' ∉ el ∧ ∃ mk, el = market_line mk ∧ pySplitWs mk <+: pySplitWs market)

/-- The C6 conclusion at an output `R`: every line of `R` that starts
with the market-line prefix displays a whole-word prefix of the market
title. -/
def MarketLinesOk (market R : Str) : Prop :=
  ∀ line ∈ pySplitCh '\n' R, marketLinePrefix.isPrefixOf line = true →
    pySplitWs (line.drop marketLinePrefix.length) <+: pySplitWs market

theorem length_dropWhile_le (p : Char → Bool) (l : List Char) :
    (l.dropWhile p).length ≤ l.length :=
  (List.dropWhile_suffix p).sublist.length_le

theorem length_takeWhile_le (p : Char → Bool) (l : List Char) :
    (l.takeWhile p).length ≤ l.length :=
  (List.takeWhile_prefix p).sublist.length_le

theorem length_drop_le (n : Nat) (l : List Char) :
    (l.drop n).length ≤ l.length := by
  simp [List.length_drop]

theorem List.contains_iff_mem_str {l : List Str} {a : Str} :
    l.contains a = true ↔ a ∈ l := by
  simp [List.contains]

/-- Construction establishes the membership invariant, for every raw
load result (missing/corrupt file or parsed items). -/
theorem PostedCache.init_inv (raw : Option (List PostedItem)) :
    (PostedCache.init raw).Inv := by
  intro uid
  cases raw with
  | none =>
      simp [PostedCache.init, PostedCache.contains]
  | some l =>
      simp [PostedCache.init, PostedCache.contains, List.contains_iff_mem_str,
        List.mem_map]

/-- C9: a missing or unparseable ledger file (`load_json` returning its
default) yields an empty ledger rather than an error: `items` is the
empty list, `contains` is `false` on every uid, and `count_since` is 0
for every time interpretation and every start time. -/
theorem c9_corrupt_ledger_is_empty :
    (PostedCache.init none).items = [] ∧
    (∀ uid : Str, (PostedCache.init none).contains uid = false) ∧
    (∀ (parseIso : Str → Int) (t : Str),
        PostedCache.count_since parseIso (PostedCache.init none) t = 0) := by
  refine ⟨rfl, fun uid => rfl, fun parseIso t => rfl⟩

/-- C10: the membership index of `PostedCache` always equals the set of
ids of `items`, construction establishes this invariant and `add`
preserves it; moreover `add` makes `contains uid` true, extends `items`
by exactly the one new entry carrying `uid` (mutating or removing
nothing), and after `add` a uid is a member exactly when it was before
or is the added one. -/
theorem c10_posted_cache_invariant (c : PostedCache) (h : c.Inv)
    (uid : Str) (tid : Option Str) (ts : Str) :
    (∀ raw, (PostedCache.init raw).Inv) ∧
    (c.add uid tid ts).Inv ∧
    (c.add uid tid ts).contains uid = true ∧
    (c.add uid tid ts).items = c.items ++ [⟨uid, tid, ts⟩] ∧
    (∀ v : Str, (c.add uid tid ts).contains v = true ↔
        (c.contains v = true ∨ v = uid)) := by
  have hmem : ∀ v : Str, (c.add uid tid ts).contains v = true ↔
      (c.contains v = true ∨ v = uid) := by
    intro v
    simp [PostedCache.add, PostedCache.contains, List.contains_iff_mem_str]
  refine ⟨PostedCache.init_inv, ?_, ?_, rfl, hmem⟩
  · intro v
    rw [hmem v]
    constructor
    · rintro (hv | rfl)
      · rcases (h v).mp hv with ⟨it, hit, rfl⟩
        exact ⟨it, by simp [PostedCache.add, hit], rfl⟩
      · exact ⟨⟨v, tid, ts⟩, by simp [PostedCache.add], rfl⟩
    · rintro ⟨it, hit, rfl⟩
      simp only [PostedCache.add, List.mem_append, List.mem_singleton] at hit
      rcases hit with hit | rfl
      · exact Or.inl ((h it.id).mpr ⟨it, hit, rfl⟩)
      · exact Or.inr rfl
  · rw [hmem uid]; exact Or.inr rfl

/-! ## Length invariant of the composer -/

theorem bestFitGo_le (f : Nat → Str) :
    ∀ (k i : Nat) (best : Option Str) (r : Str),
      bestFitGo f k i best = some r →
      (∀ x, best = some x → x.length ≤ MAX_TWEET_LEN) →
      r.length ≤ MAX_TWEET_LEN := by
  intro k
  induction k with
  | zero => exact fun i best r h hb => hb r h
  | succ k ih =>
      intro i best r h hb
      simp only [bestFitGo] at h
      split at h
      · exact ih (i + 1) (some (f i)) r h (by rintro x hx; cases hx; assumption)
      · exact hb r h

theorem bestFit_le {f : Nat → Str} {n : Nat} {r : Str}
    (h : bestFit f n = some r) : r.length ≤ MAX_TWEET_LEN :=
  bestFitGo_le f n 1 none r h (by rintro x hx; cases hx)

theorem shrinkWordsGo_le {lines : List Str} {minWords : Nat} :
    ∀ {fuel : Nat} {words : List Str} {r : Str},
      shrinkWordsGo lines minWords fuel words = some r →
      r.length ≤ MAX_TWEET_LEN := by
  intro fuel
  induction fuel with
  | zero => intro words r h; cases h
  | succ fuel ih =>
      intro words r h
      simp only [shrinkWordsGo] at h
      split at h
      · split at h
        · cases h; assumption
        · exact ih h
      · cases h

theorem lastResortGo_le {lines : List Str} :
    ∀ {fuel : Nat} {mk : Str} {r : Str},
      lastResortGo lines fuel mk = some r → r.length ≤ MAX_TWEET_LEN := by
  intro fuel
  induction fuel with
  | zero => intro mk r h; cases h
  | succ fuel ih =>
      intro mk r h
      simp only [lastResortGo] at h
      split at h
      · cases h; assumption
      · split at h
        · cases h
        · split at h
          · exact ih h
          · exact ih h

theorem fitOpt_le {s r : Str} (h : fitOpt s = some r) :
    r.length ≤ MAX_TWEET_LEN := by
  unfold fitOpt at h
  split at h
  · cases h; assumption
  · cases h

theorem stepCompact1_le {fs r : Str} {lines : List Str}
    (h : stepCompact1 fs lines = some r) : r.length ≤ MAX_TWEET_LEN := by
  unfold stepCompact1 at h
  split at h
  · cases h
  · exact fitOpt_le h

theorem stepShrink_le {fs r : Str} {lines : List Str} {minWords : Nat}
    {words : List Str} (h : stepShrink fs lines minWords words = some r) :
    r.length ≤ MAX_TWEET_LEN := by
  unfold stepShrink at h
  split at h
  · cases h
  · exact shrinkWordsGo_le h

theorem orElse_some_cases {α : Type} {a b : Option α} {r : α}
    (h : (a <|> b) = some r) : a = some r ∨ (a = none ∧ b = some r) := by
  cases a with
  | none => exact Or.inr ⟨rfl, by simpa [Option.orElse] using h⟩
  | some x => exact Or.inl (by simpa [Option.orElse] using h)

theorem stepLineDrops_le {fs r : Str} {a b c d : List Str}
    (h : stepLineDrops fs a b c d = some r) : r.length ≤ MAX_TWEET_LEN := by
  unfold stepLineDrops at h
  split at h
  · cases h
  · rcases orElse_some_cases h with h1 | ⟨_, h1⟩
    · exact fitOpt_le h1
    rcases orElse_some_cases h1 with h2 | ⟨_, h2⟩
    · exact fitOpt_le h2
    rcases orElse_some_cases h2 with h3 | ⟨_, h3⟩
    · exact fitOpt_le h3
    · exact fitOpt_le h3

theorem truncationFallback_le (pnl_str outcome market wallet : Str) :
    (truncationFallback pnl_str outcome market wallet).length ≤ MAX_TWEET_LEN := by
  unfold truncationFallback
  simpa using List.length_take_le MAX_TWEET_LEN _

theorem apply_footer_and_trim_le (text wallet pnl_str market outcome : Str) :
    (apply_footer_and_trim text wallet pnl_str market outcome).length ≤
      MAX_TWEET_LEN := by
  simp only [apply_footer_and_trim]
  split
  · assumption
  split
  next r h => exact bestFit_le h
  split
  next r h => exact stepCompact1_le h
  split
  next r h => exact stepShrink_le h
  split
  next r h => exact stepShrink_le h
  split
  next r h => exact stepLineDrops_le h
  split
  next r h => exact fitOpt_le h
  split
  next r h => exact shrinkWordsGo_le h
  split
  next r h => exact lastResortGo_le h
  split
  next r h => exact fitOpt_le h
  split
  next r h => exact fitOpt_le h
  split
  next r h => exact fitOpt_le h
  exact truncationFallback_le pnl_str outcome market wallet

/-- C1: for every body text, wallet, formatted pnl string, market
title and outcome label, the composed output of `apply_footer_and_trim`
has length at most `MAX_TWEET_LEN = 280`, on every return path. -/
theorem c1_composer_length_bound (text wallet pnl_str market outcome : Str) :
    (apply_footer_and_trim text wallet pnl_str market outcome).length ≤ 280 :=
  apply_footer_and_trim_le text wallet pnl_str market outcome

/-! ## Mention-token facts for the composer (C2) -/

theorem isSubstr_iff_isInfix {n h : Str} : isSubstr n h = true ↔ n <:+: h := by
  induction h with
  | nil =>
      simp only [isSubstr, List.isEmpty_iff, List.infix_nil]
  | cons c rest ih =>
      simp [isSubstr, List.isPrefixOf_iff_prefix, ih, List.infix_cons_iff]

theorem infix_middle {tok T : Str} (pre suf : Str) (h : tok <:+: T) :
    tok <:+: pre ++ T ++ suf :=
  h.trans ⟨pre, suf, rfl⟩

theorem prefix_joinSep (sep x : Str) (l : List Str) :
    x <+: joinSep sep (x :: l) := by
  cases l with
  | nil => simp [joinSep]
  | cons y rest =>
      show x <+: x ++ sep ++ joinSep sep (y :: rest)
      rw [List.append_assoc]
      exact List.prefix_append x _

theorem infix_dropWhileWs {tok s : Str} (c0 : Char) (trest : Str)
    (htok : tok = c0 :: trest) (hc0 : isPySpace c0 = false)
    (h : tok <:+: s) : tok <:+: s.dropWhile isPySpace := by
  induction s with
  | nil => simpa using h
  | cons c rest ih =>
      rw [List.dropWhile_cons]
      split
      next hws =>
        rcases List.infix_cons_iff.mp h with hp | hi
        · rcases hp with ⟨t, ht⟩
          rw [htok] at ht
          cases ht
          rw [hc0] at hws
          cases hws
        · exact ih hi
      next => exact h

theorem tok_infix_pyStrip {s : Str} (h : mentionTok <:+: s) :
    mentionTok <:+: pyStrip s := by
  unfold pyStrip pyRstrip pyLstrip
  have h1 : mentionTok <:+: s.dropWhile isPySpace :=
    infix_dropWhileWs '@' "Polymarket".data rfl (by decide) h
  have h2 : mentionTok.reverse <:+: (s.dropWhile isPySpace).reverse :=
    List.reverse_infix.mpr h1
  have h3 : mentionTok.reverse <:+:
      ((s.dropWhile isPySpace).reverse).dropWhile isPySpace :=
    infix_dropWhileWs 't' "ekramyloP@".data rfl (by decide) h2
  calc mentionTok
      = mentionTok.reverse.reverse := by simp
    _ <:+: (((s.dropWhile isPySpace).reverse).dropWhile isPySpace).reverse :=
        List.reverse_infix.mpr h3

theorem tok_infix_onTok : mentionTok <:+: onTok := by decide

theorem tok_infix_insertTokSent (s0 : Str) :
    mentionTok <:+: insertTokSent s0 := by
  unfold insertTokSent
  split
  next base punct _ =>
      exact infix_middle (stripTrailingOn (pyRstrip base)) punct tok_infix_onTok
  next =>
      have h := infix_middle (stripTrailingOn (pyRstrip s0)) [] tok_infix_onTok
      simpa using h

theorem vsFix1Go_eq_or_contains (market : Str) :
    ∀ (fuel : Nat) (b : Bool) (s : Str),
      vsFix1Go market fuel b s = s ∨
        mentionTok <:+: vsFix1Go market fuel b s := by
  intro fuel
  induction fuel with
  | zero => intro b s; exact Or.inl rfl
  | succ fuel ih =>
      intro b s
      cases s with
      | nil => exact Or.inl rfl
      | cons c rest =>
          simp only [vsFix1Go]
          split
          · split
            next r _ =>
              have hm : mentionTok =
                  ['@', 'P', 'o', 'l', 'y', 'm', 'a', 'r', 'k', 'e', 't'] := rfl
              exact Or.inr ⟨'o' :: 'n' :: ' ' :: (market ++ [' ', 'o', 'n', ' ']),
                vsFix1Go market fuel true r, by rw [hm]; simp⟩
            next =>
              rcases ih (isWordChar c) rest with he | hc
              · rw [he]; exact Or.inl rfl
              · exact Or.inr (List.infix_cons_iff.mpr (Or.inr hc))
          · rcases ih (isWordChar c) rest with he | hc
            · rw [he]; exact Or.inl rfl
            · exact Or.inr (List.infix_cons_iff.mpr (Or.inr hc))

theorem vsFix2Go_eq_or_contains (market : Str) :
    ∀ (fuel : Nat) (b : Bool) (s : Str),
      vsFix2Go market fuel b s = s ∨
        mentionTok <:+: vsFix2Go market fuel b s := by
  intro fuel
  induction fuel with
  | zero => intro b s; exact Or.inl rfl
  | succ fuel ih =>
      intro b s
      cases s with
      | nil => exact Or.inl rfl
      | cons c rest =>
          simp only [vsFix2Go]
          split
          · split
            next r _ =>
              have hm : mentionTok =
                  ['@', 'P', 'o', 'l', 'y', 'm', 'a', 'r', 'k', 'e', 't'] := rfl
              exact Or.inr ⟨market ++ [' ', 'o', 'n', ' '],
                vsFix2Go market fuel true r, by rw [hm]; simp⟩
            next =>
              rcases ih (isWordChar c) rest with he | hc
              · rw [he]; exact Or.inl rfl
              · exact Or.inr (List.infix_cons_iff.mpr (Or.inr hc))
          · rcases ih (isWordChar c) rest with he | hc
            · rw [he]; exact Or.inl rfl
            · exact Or.inr (List.infix_cons_iff.mpr (Or.inr hc))

theorem tok_infix_vsFix1 {market s : Str} (h : mentionTok <:+: s) :
    mentionTok <:+: vsFix1 market s := by
  unfold vsFix1
  rcases vsFix1Go_eq_or_contains market (s.length + 1) false s with he | hc
  · rw [he]; exact h
  · exact hc

theorem tok_infix_vsFix2 {market s : Str} (h : mentionTok <:+: s) :
    mentionTok <:+: vsFix2 market s := by
  unfold vsFix2
  rcases vsFix2Go_eq_or_contains market (s.length + 1) false s with he | hc
  · rw [he]; exact h
  · exact hc

theorem tok_infix_aiLineOf (text market : Str) :
    mentionTok <:+: aiLineOf text market := by
  unfold aiLineOf
  have hai1 : mentionTok <:+:
      (if (joinSpace (pySplitlines (pyStrip text))).isEmpty then
        "on @Polymarket".data
      else
        match sentSplit (joinSpace (pySplitlines (pyStrip text))) with
        | [] => "on @Polymarket".data
        | s0 :: restS =>
            (if isSubstr mentionTok s0 then s0 else insertTokSent s0) ::
              restS |> joinSpace) := by
    split
    · decide
    · split
      · decide
      next s0 restS _ =>
        split
        next hsub =>
          exact (isSubstr_iff_isInfix.mp hsub).trans
            (prefix_joinSep [' '] s0 restS).isInfix
        next =>
          exact (tok_infix_insertTokSent s0).trans
            (prefix_joinSep [' '] (insertTokSent s0) restS).isInfix
  split
  · exact hai1
  · exact tok_infix_vsFix2 (tok_infix_vsFix1 hai1)

/-- C2 counterexample: a body that already carries the mention token
twice is composed on the first (full-layout, fitting) return path with
both occurrences kept: the output contains `@Polymarket` twice, not
exactly once, and the final hard-truncation path is not involved. -/
theorem c2_counterexample :
    apply_footer_and_trim "Won on @Polymarket! Also @Polymarket again.".data
        [] "$1".data "M".data "Yes".data =
      joinNL (build_lines "$1".data "Yes".data "M".data []
        (aiLineOf "Won on @Polymarket! Also @Polymarket again.".data "M".data)) ∧
    countSub mentionTok
      (apply_footer_and_trim "Won on @Polymarket! Also @Polymarket again.".data
        [] "$1".data "M".data "Yes".data) = 2 :=
  ⟨rfl, rfl⟩

/-- C2 amended: whenever the full multi-line layout fits the budget
(the first return path), the composed output contains the canonical
token `@Polymarket` at least once; the exactly-once cardinality of the
original claim fails (see `c2_counterexample`), and trimming paths may
lose the token when the market title carries sentence punctuation. -/
theorem c2_amended_full_path_has_token (text wallet pnl_str market outcome : Str)
    (h : (joinNL (build_lines pnl_str outcome market wallet
        (aiLineOf text market))).length ≤ MAX_TWEET_LEN) :
    apply_footer_and_trim text wallet pnl_str market outcome =
      joinNL (build_lines pnl_str outcome market wallet (aiLineOf text market)) ∧
    isSubstr mentionTok
      (apply_footer_and_trim text wallet pnl_str market outcome) = true := by
  have heq : apply_footer_and_trim text wallet pnl_str market outcome =
      joinNL (build_lines pnl_str outcome market wallet (aiLineOf text market)) := by
    unfold apply_footer_and_trim
    rw [if_pos h]
  refine ⟨heq, ?_⟩
  rw [heq]
  apply isSubstr_iff_isInfix.mpr
  have h1 : mentionTok <:+: pyStrip (aiLineOf text market) :=
    tok_infix_pyStrip (tok_infix_aiLineOf text market)
  have h2 : pyStrip (aiLineOf text market) <+:
      joinNL (build_lines pnl_str outcome market wallet (aiLineOf text market)) := by
    unfold build_lines joinNL
    simp only [List.cons_append]
    exact prefix_joinSep ['\n'] _ _
  exact h1.trans h2.isInfix

/-- Witness for the amended C2 at a concrete fitting input. -/
theorem c2_amended_full_path_has_token_witness :
    apply_footer_and_trim "Nice win.".data [] "$1".data "M".data "Yes".data =
      joinNL (build_lines "$1".data "Yes".data "M".data []
        (aiLineOf "Nice win.".data "M".data)) ∧
    isSubstr mentionTok
      (apply_footer_and_trim "Nice win.".data [] "$1".data "M".data
        "Yes".data) = true :=
  c2_amended_full_path_has_token "Nice win.".data [] "$1".data "M".data
    "Yes".data (by decide)

/-! ## Sentence-truncation search (C5) -/

theorem dropWhile_head_not (p : Char → Bool) :
    ∀ (l : List Char) (c : Char) (rest : List Char),
      l.dropWhile p = c :: rest → p c = false := by
  intro l
  induction l with
  | nil => intro c rest h; cases h
  | cons a l' ih =>
      intro c rest h
      rw [List.dropWhile_cons] at h
      split at h
      next => exact ih c rest h
      next hpa => cases h; simpa using hpa

theorem dropWhile_idem (p : Char → Bool) (l : List Char) :
    (l.dropWhile p).dropWhile p = l.dropWhile p := by
  cases h : l.dropWhile p with
  | nil => simp
  | cons c rest =>
      rw [List.dropWhile_cons, dropWhile_head_not p l c rest h]
      simp

theorem pyRstrip_idem (s : Str) : pyRstrip (pyRstrip s) = pyRstrip s := by
  unfold pyRstrip
  rw [List.reverse_reverse, dropWhile_idem]

theorem pyRstrip_isPrefix (s : Str) : pyRstrip s <+: s := by
  have h : (pyRstrip s).reverse <:+ s.reverse := by
    unfold pyRstrip
    rw [List.reverse_reverse]
    exact List.dropWhile_suffix isPySpace
  exact List.reverse_suffix.mp h

theorem pyStrip_idem (s : Str) : pyStrip (pyStrip s) = pyStrip s := by
  unfold pyStrip
  have hl : pyLstrip (pyLstrip s) = pyLstrip s := dropWhile_idem isPySpace s
  have key : pyLstrip (pyRstrip (pyLstrip s)) = pyRstrip (pyLstrip s) := by
    cases h : pyRstrip (pyLstrip s) with
    | nil => simp [pyLstrip]
    | cons c rest =>
        have hpref : (c :: rest) <+: pyLstrip s := h ▸ pyRstrip_isPrefix (pyLstrip s)
        rcases hpref with ⟨t, ht⟩
        have h3 : s.dropWhile isPySpace = c :: (rest ++ t) := by
          simpa [pyLstrip] using ht.symm
        have hc : isPySpace c = false :=
          dropWhile_head_not isPySpace s c (rest ++ t) h3
        simp [pyLstrip, List.dropWhile_cons, hc]
  rw [key, pyRstrip_idem]

theorem length_pyRstrip_le_append (a b : Str) :
    (pyRstrip a).length ≤ (pyRstrip (a ++ b)).length := by
  unfold pyRstrip
  rw [List.reverse_append, List.dropWhile_append]
  split
  · simp
  · have h1 := length_dropWhile_le isPySpace a.reverse
    simp only [List.length_reverse, List.length_append] at h1 ⊢
    omega

theorem length_pyStrip_le_append (x y : Str) :
    (pyStrip x).length ≤ (pyStrip (x ++ y)).length := by
  unfold pyStrip pyLstrip
  rw [List.dropWhile_append]
  split
  next h =>
    rw [List.isEmpty_iff.mp h]
    simp [pyRstrip]
  next h => exact length_pyRstrip_le_append _ y

theorem joinSep_append_singleton (sep p : Str) :
    ∀ (x : Str) (l : List Str),
      joinSep sep ((x :: l) ++ [p]) = joinSep sep (x :: l) ++ sep ++ p := by
  intro x l
  induction l generalizing x with
  | nil => simp [joinSep]
  | cons y l' ih =>
      show joinSep sep (x :: y :: (l' ++ [p])) = _
      have h1 : joinSep sep (x :: y :: (l' ++ [p])) =
          x ++ sep ++ joinSep sep (y :: (l' ++ [p])) := by
        cases l' <;> rfl
      have h2 : joinSep sep (x :: y :: l') = x ++ sep ++ joinSep sep (y :: l') :=
        rfl
      rw [h1, show y :: (l' ++ [p]) = (y :: l') ++ [p] from rfl, ih y, h2]
      simp [List.append_assoc]

theorem candidateAt_mono_succ (s : List Str) (i : Nat) :
    (candidateAt s i).length ≤ (candidateAt s (i + 1)).length := by
  unfold candidateAt
  rw [List.take_succ]
  cases hg : s[i]? with
  | none => simp
  | some a =>
      cases ht : s.take i with
      | nil =>
          simp [joinSpace, joinSep]
          exact Nat.zero_le _
      | cons x l' =>
          rw [ht] at *
          simp only [Option.toList]
          rw [show joinSpace ((x :: l') ++ [a]) =
              joinSpace (x :: l') ++ [' '] ++ a from
            joinSep_append_singleton [' '] a x l']
          rw [List.append_assoc]
          exact length_pyStrip_le_append _ _

theorem candidateAt_mono (s : List Str) {i j : Nat} (h : i ≤ j) :
    (candidateAt s i).length ≤ (candidateAt s j).length := by
  induction j with
  | zero => cases Nat.le_zero.mp h; exact Nat.le_refl _
  | succ j ih =>
      rcases Nat.lt_or_ge i (j + 1) with hlt | hge
      · exact (ih (by omega)).trans (candidateAt_mono_succ s j)
      · have : i = j + 1 := by omega
        subst this; exact Nat.le_refl _

theorem joinNL_cons_length (x : Str) (l : List Str) (h : l ≠ []) :
    (joinNL (x :: l)).length = x.length + 1 + (joinNL l).length := by
  cases l with
  | nil => cases h rfl
  | cons y l' =>
      show (joinSep ['\n'] (x :: y :: l')).length = _
      have : joinSep ['\n'] (x :: y :: l') =
          x ++ ['\n'] ++ joinSep ['\n'] (y :: l') := rfl
      rw [this]
      simp [joinNL, List.length_append]
      omega

theorem build_lines_cons (p o m w a : Str) :
    build_lines p o m w a =
      pyStrip a ::
        (([[], money_line p o, market_line m] ++
            (if w.isEmpty then [] else [[], [link_emoji], profile_link w])) ++
          [[], FOOTER, CTA]) := by
  unfold build_lines
  simp

theorem layoutAt_mono (p o m w : Str) (s : List Str) {i j : Nat} (h : i ≤ j) :
    (layoutAt p o m w s i).length ≤ (layoutAt p o m w s j).length := by
  unfold layoutAt
  rw [build_lines_cons, build_lines_cons]
  have htail :
      (([[], money_line p o, market_line m] ++
          (if w.isEmpty then [] else [[], [link_emoji], profile_link w])) ++
        [[], FOOTER, CTA]) ≠ [] := by
    simp
  rw [joinNL_cons_length _ _ htail, joinNL_cons_length _ _ htail]
  have hcand : (pyStrip (candidateAt s i)).length ≤
      (pyStrip (candidateAt s j)).length := by
    unfold candidateAt
    rw [pyStrip_idem, pyStrip_idem]
    exact candidateAt_mono s h
  omega

theorem bestFitGo_spec (f : Nat → Str) :
    ∀ (k i : Nat) (b : Option Str) (r : Str),
      bestFitGo f k i b = some r →
      (b = some r ∧ (k = 0 ∨ ¬ (f i).length ≤ MAX_TWEET_LEN)) ∨
      (∃ j, i ≤ j ∧ j < i + k ∧ r = f j ∧ (f j).length ≤ MAX_TWEET_LEN ∧
        (j + 1 < i + k → ¬ (f (j + 1)).length ≤ MAX_TWEET_LEN)) := by
  intro k
  induction k with
  | zero => intro i b r h; exact Or.inl ⟨h, Or.inl rfl⟩
  | succ k ih =>
      intro i b r h
      simp only [bestFitGo] at h
      split at h
      next hf =>
        rcases ih (i + 1) (some (f i)) r h with ⟨hb, hk⟩ | ⟨j, h1, h2, h3, h4, h5⟩
        · refine Or.inr ⟨i, Nat.le_refl i, by omega, by cases hb; rfl, hf, ?_⟩
          intro hlt
          rcases hk with hk | hk
          · omega
          · exact hk
        · exact Or.inr ⟨j, by omega, by omega, h3, h4, fun h6 => h5 (by omega)⟩
      next hf => exact Or.inl ⟨h, Or.inr hf⟩

theorem bestFit_spec {f : Nat → Str} {n : Nat} {r : Str}
    (h : bestFit f n = some r)
    (mono : ∀ a b : Nat, a ≤ b → (f a).length ≤ (f b).length) :
    ∃ j, 1 ≤ j ∧ j ≤ n ∧ r = f j ∧ (f j).length ≤ MAX_TWEET_LEN ∧
      ∀ m, j < m → m ≤ n → MAX_TWEET_LEN < (f m).length := by
  rcases bestFitGo_spec f n 1 none r h with ⟨hb, _⟩ | ⟨j, h1, h2, h3, h4, h5⟩
  · cases hb
  · refine ⟨j, h1, by omega, h3, h4, ?_⟩
    intro m hm1 hm2
    have hj1 : ¬ (f (j + 1)).length ≤ MAX_TWEET_LEN := h5 (by omega)
    have hmono := mono (j + 1) m (by omega)
    omega

/-- C5: when the full layout exceeds the budget and the
sentence-truncation search succeeds, the composer returns the full
layout built from the first `j` sentences of the normalized body,
where `j` is the largest sentence count whose layout fits within 280
characters; the body of the result is
`" ".join(sentences[:j]).strip()` — whole leading sentences only, a
prefix of the body's sentence list, with no sentence cut mid-way. -/
theorem c5_sentence_truncation_search (text wallet pnl_str market outcome : Str)
    (h1 : MAX_TWEET_LEN < (joinNL (build_lines pnl_str outcome market wallet
        (aiLineOf text market))).length)
    (h2 : bestFit (layoutAt pnl_str outcome market wallet (sentencesOf text market))
        (sentencesOf text market).length ≠ none) :
    ∃ j, 1 ≤ j ∧ j ≤ (sentencesOf text market).length ∧
      apply_footer_and_trim text wallet pnl_str market outcome =
        layoutAt pnl_str outcome market wallet (sentencesOf text market) j ∧
      (layoutAt pnl_str outcome market wallet
        (sentencesOf text market) j).length ≤ MAX_TWEET_LEN ∧
      ∀ m, j < m → m ≤ (sentencesOf text market).length →
        MAX_TWEET_LEN <
          (layoutAt pnl_str outcome market wallet (sentencesOf text market) m).length := by
  rcases Option.ne_none_iff_exists'.mp h2 with ⟨r, hr⟩
  have heq : apply_footer_and_trim text wallet pnl_str market outcome = r := by
    simp only [apply_footer_and_trim]
    rw [if_neg (by omega)]
    have hr' := hr
    unfold sentencesOf at hr'
    rw [hr']
  rcases bestFit_spec hr
      (fun a b hab => layoutAt_mono pnl_str outcome market wallet _ hab) with
    ⟨j, hj1, hj2, hj3, hj4, hj5⟩
  exact ⟨j, hj1, hj2, heq.trans hj3, hj3 ▸ hj4, hj5⟩

/-- Witness for C5 at a concrete two-sentence body whose full layout
overflows while the one-sentence layout fits. -/
theorem c5_sentence_truncation_search_witness :
    ∃ j, 1 ≤ j ∧
      j ≤ (sentencesOf ("First sentence with plenty of padding ".data ++
          List.replicate 110 'a' ++ ". Second sentence adding ".data ++
          List.replicate 80 'b' ++ " more.".data) "M".data).length ∧
      apply_footer_and_trim ("First sentence with plenty of padding ".data ++
          List.replicate 110 'a' ++ ". Second sentence adding ".data ++
          List.replicate 80 'b' ++ " more.".data) [] "$1".data "M".data "Yes".data =
        layoutAt "$1".data "Yes".data "M".data []
          (sentencesOf ("First sentence with plenty of padding ".data ++
            List.replicate 110 'a' ++ ". Second sentence adding ".data ++
            List.replicate 80 'b' ++ " more.".data) "M".data) j ∧
      (layoutAt "$1".data "Yes".data "M".data []
        (sentencesOf ("First sentence with plenty of padding ".data ++
          List.replicate 110 'a' ++ ". Second sentence adding ".data ++
          List.replicate 80 'b' ++ " more.".data) "M".data) j).length ≤
        MAX_TWEET_LEN ∧
      ∀ m, j < m →
        m ≤ (sentencesOf ("First sentence with plenty of padding ".data ++
          List.replicate 110 'a' ++ ". Second sentence adding ".data ++
          List.replicate 80 'b' ++ " more.".data) "M".data).length →
        MAX_TWEET_LEN <
          (layoutAt "$1".data "Yes".data "M".data []
            (sentencesOf ("First sentence with plenty of padding ".data ++
              List.replicate 110 'a' ++ ". Second sentence adding ".data ++
              List.replicate 80 'b' ++ " more.".data) "M".data) m).length :=
  c5_sentence_truncation_search
    ("First sentence with plenty of padding ".data ++ List.replicate 110 'a' ++
      ". Second sentence adding ".data ++ List.replicate 80 'b' ++ " more.".data)
    [] "$1".data "M".data "Yes".data (by decide) (by decide)

/-! ## Footer preservation (C7) -/

theorem mem_joinNL_isInfix {x : Str} : ∀ {L : List Str}, x ∈ L → x <:+: joinNL L := by
  intro L
  induction L with
  | nil => intro h; cases h
  | cons y rest ih =>
      intro h
      rcases List.mem_cons.mp h with rfl | hm
      · exact (prefix_joinSep ['\n'] x rest).isInfix
      · have h1 : x <:+: joinNL rest := ih hm
        have hne : rest ≠ [] := by rintro rfl; cases hm
        obtain ⟨z, l', rfl⟩ : ∃ z l', rest = z :: l' := by
          cases rest with
          | nil => cases hne rfl
          | cons z l' => exact ⟨z, l', rfl⟩
        have he : joinNL (y :: z :: l') = y ++ ['\n'] ++ joinNL (z :: l') := rfl
        rw [he]
        exact h1.trans ⟨y ++ ['\n'], [], by simp⟩

/-- The quoted footer body sits inside the footer line constant. -/
theorem footer_body_isInfix : "Built by @ForgeLabs__".data <:+: FOOTER := by decide

theorem footer_isSubstr_of_mem {L : List Str} (h : FOOTER ∈ L) :
    isSubstr "Built by @ForgeLabs__".data (joinNL L) = true :=
  isSubstr_iff_isInfix.mpr (footer_body_isInfix.trans (mem_joinNL_isInfix h))

theorem footer_mem_build_lines (p o m w a : Str) :
    FOOTER ∈ build_lines p o m w a := by
  unfold build_lines
  simp

theorem footer_mem_compact (p o m w a : Str) :
    FOOTER ∈ build_lines_compact p o m w a := by
  unfold build_lines_compact
  simp

theorem footer_mem_compact_set2 (p o m w a x : Str) :
    FOOTER ∈ (build_lines_compact p o m w a).set 2 x := by
  unfold build_lines_compact
  cases w with
  | nil => simp [List.set]
  | cons c cs => simp [List.set]

theorem fitOpt_eq {s r : Str} (h : fitOpt s = some r) : r = s := by
  unfold fitOpt at h
  split at h
  · cases h; rfl
  · cases h

theorem bestFit_shape {f : Nat → Str} {n : Nat} {r : Str}
    (h : bestFit f n = some r) : ∃ i, r = f i := by
  rcases bestFitGo_spec f n 1 none r h with ⟨hb, _⟩ | ⟨j, _, _, h3, _, _⟩
  · cases hb
  · exact ⟨j, h3⟩

theorem stepCompact1_shape {fs r : Str} {lines : List Str}
    (h : stepCompact1 fs lines = some r) : r = joinNL lines := by
  unfold stepCompact1 at h
  split at h
  · cases h
  · exact fitOpt_eq h

theorem shrinkWordsGo_shape {lines : List Str} {minWords : Nat} :
    ∀ {fuel : Nat} {words : List Str} {r : Str},
      shrinkWordsGo lines minWords fuel words = some r →
      ∃ mk, r = joinNL (lines.set 2 (market_line mk)) := by
  intro fuel
  induction fuel with
  | zero => intro words r h; cases h
  | succ fuel ih =>
      intro words r h
      simp only [shrinkWordsGo] at h
      split at h
      · split at h
        · cases h; exact ⟨joinSpace words, rfl⟩
        · exact ih h
      · cases h

theorem stepShrink_shape {fs r : Str} {lines : List Str} {minWords : Nat}
    {words : List Str} (h : stepShrink fs lines minWords words = some r) :
    ∃ mk, r = joinNL (lines.set 2 (market_line mk)) := by
  unfold stepShrink at h
  split at h
  · cases h
  · exact shrinkWordsGo_shape h

theorem lastResortGo_shape {lines : List Str} :
    ∀ {fuel : Nat} {mk : Str} {r : Str},
      lastResortGo lines fuel mk = some r →
      ∃ mk2, r = joinNL (lines.set 2 (pyRstrip (market_line mk2))) := by
  intro fuel
  induction fuel with
  | zero => intro mk r h; cases h
  | succ fuel ih =>
      intro mk r h
      simp only [lastResortGo] at h
      split at h
      · cases h; exact ⟨mk, rfl⟩
      · split at h
        · cases h
        · split at h
          · exact ih h
          · exact ih h

theorem stepLineDrops_shape {fs r : Str} {a b c d : List Str}
    (h : stepLineDrops fs a b c d = some r) :
    r = joinNL a ∨ r = joinNL b ∨ r = joinNL c ∨ r = joinNL d := by
  unfold stepLineDrops at h
  split at h
  · cases h
  · rcases orElse_some_cases h with h1 | ⟨_, h1⟩
    · exact Or.inl (fitOpt_eq h1)
    rcases orElse_some_cases h1 with h2 | ⟨_, h2⟩
    · exact Or.inr (Or.inl (fitOpt_eq h2))
    rcases orElse_some_cases h2 with h3 | ⟨_, h3⟩
    · exact Or.inr (Or.inr (Or.inl (fitOpt_eq h3)))
    · exact Or.inr (Or.inr (Or.inr (fitOpt_eq h3)))

theorem footer_mem_filter_chart {L : List Str} (h : FOOTER ∈ L) :
    FOOTER ∈ L.filter (fun ln => !(chartPrefix.isPrefixOf ln)) :=
  List.mem_filter.mpr ⟨h, rfl⟩

theorem footer_mem_filter_money {L : List Str} (h : FOOTER ∈ L) :
    FOOTER ∈ L.filter (fun ln => !(moneyPrefix.isPrefixOf ln)) :=
  List.mem_filter.mpr ⟨h, rfl⟩

theorem footer_mem_filter_emoji {L : List Str} (h : FOOTER ∈ L) :
    FOOTER ∈ L.filter (fun ln => ln != [link_emoji]) :=
  List.mem_filter.mpr ⟨h, rfl⟩

theorem chart_pred_money (p o : Str) :
    (!(chartPrefix.isPrefixOf (money_line p o))) = true := rfl

theorem chart_pred_market (m : Str) :
    (!(chartPrefix.isPrefixOf (market_line m))) = false := rfl

theorem chart_pred_link (w : Str) :
    (!(chartPrefix.isPrefixOf (profile_link w))) = true := rfl

theorem emoji_pred_money (p o : Str) :
    ((money_line p o) != [link_emoji]) = true := rfl

theorem emoji_pred_link (w : Str) :
    ((profile_link w) != [link_emoji]) = true := rfl

/-- After dropping the chart line and the link glyph from the compact
layout, the footer still sits strictly after the first remaining line,
so it survives `lines_no_emoji[1:]`. -/
theorem footer_mem_no_emoji_tail (p o m w fs : Str) :
    FOOTER ∈ (((build_lines_compact p o m w fs).filter
        (fun ln => !(chartPrefix.isPrefixOf ln))).filter
      (fun ln => ln != [link_emoji])).tail := by
  cases w with
  | nil =>
      have hc : build_lines_compact p o m [] fs =
          pyStrip fs :: [money_line p o, market_line m, FOOTER, CTA] := rfl
      have hT1 : List.filter (fun ln => !(chartPrefix.isPrefixOf ln))
          [money_line p o, market_line m, FOOTER, CTA] =
          [money_line p o, FOOTER, CTA] := rfl
      have hT2 : List.filter (fun ln => ln != [link_emoji])
          [money_line p o, FOOTER, CTA] = [money_line p o, FOOTER, CTA] := rfl
      rw [hc, List.filter_cons]
      split
      · rw [hT1, List.filter_cons]
        split
        · rw [hT2]; simp
        · rw [hT2]; simp
      · rw [hT1, hT2]; simp
  | cons c cs =>
      have hc : build_lines_compact p o m (c :: cs) fs =
          pyStrip fs :: [money_line p o, market_line m, [link_emoji],
            profile_link (c :: cs), FOOTER, CTA] := rfl
      have hT1 : List.filter (fun ln => !(chartPrefix.isPrefixOf ln))
          [money_line p o, market_line m, [link_emoji],
            profile_link (c :: cs), FOOTER, CTA] =
          [money_line p o, [link_emoji], profile_link (c :: cs), FOOTER, CTA] := rfl
      have hT2 : List.filter (fun ln => ln != [link_emoji])
          [money_line p o, [link_emoji], profile_link (c :: cs), FOOTER, CTA] =
          [money_line p o, profile_link (c :: cs), FOOTER, CTA] := rfl
      rw [hc, List.filter_cons]
      split
      · rw [hT1, List.filter_cons]
        split
        · rw [hT2]; simp
        · rw [hT2]; simp
      · rw [hT1, hT2]; simp

/-- C7: the footer line `Built by @ForgeLabs__` appears verbatim in the
output of `apply_footer_and_trim` on every return path other than the
absolute hard-truncation fallback: the line-dropping cascades remove
only the market line, the money line and the link glyph, and every
fitting return includes the footer line unshortened. -/
theorem c7_footer_preserved (text wallet pnl_str market outcome : Str) :
    isSubstr "Built by @ForgeLabs__".data
        (apply_footer_and_trim text wallet pnl_str market outcome) = true ∨
    apply_footer_and_trim text wallet pnl_str market outcome =
      truncationFallback pnl_str outcome market wallet := by
  simp only [apply_footer_and_trim]
  split
  · exact Or.inl (footer_isSubstr_of_mem (footer_mem_build_lines _ _ _ _ _))
  split
  next r h =>
    obtain ⟨i, rfl⟩ := bestFit_shape h
    exact Or.inl (footer_isSubstr_of_mem (footer_mem_build_lines _ _ _ _ _))
  split
  next r h =>
    obtain rfl := stepCompact1_shape h
    exact Or.inl (footer_isSubstr_of_mem (footer_mem_compact _ _ _ _ _))
  split
  next r h =>
    obtain ⟨mk, rfl⟩ := stepShrink_shape h
    exact Or.inl (footer_isSubstr_of_mem (footer_mem_compact_set2 _ _ _ _ _ _))
  split
  next r h =>
    obtain ⟨mk, rfl⟩ := stepShrink_shape h
    exact Or.inl (footer_isSubstr_of_mem (footer_mem_compact_set2 _ _ _ _ _ _))
  split
  next r h =>
    rcases stepLineDrops_shape h with rfl | rfl | rfl | rfl
    · exact Or.inl (footer_isSubstr_of_mem
        (footer_mem_filter_chart (footer_mem_compact _ _ _ _ _)))
    · exact Or.inl (footer_isSubstr_of_mem
        (footer_mem_filter_emoji (footer_mem_filter_chart
          (footer_mem_compact _ _ _ _ _))))
    · exact Or.inl (footer_isSubstr_of_mem
        (List.mem_cons_of_mem _ (footer_mem_no_emoji_tail _ _ _ _ _)))
    · exact Or.inl (footer_isSubstr_of_mem
        (footer_mem_filter_money (footer_mem_filter_emoji
          (footer_mem_filter_chart (footer_mem_compact _ _ _ _ _)))))
  split
  next r h =>
    obtain rfl := fitOpt_eq h
    exact Or.inl (footer_isSubstr_of_mem (footer_mem_compact _ _ _ _ _))
  split
  next r h =>
    obtain ⟨mk, rfl⟩ := shrinkWordsGo_shape h
    exact Or.inl (footer_isSubstr_of_mem (footer_mem_compact_set2 _ _ _ _ _ _))
  split
  next r h =>
    obtain ⟨mk2, rfl⟩ := lastResortGo_shape h
    exact Or.inl (footer_isSubstr_of_mem (footer_mem_compact_set2 _ _ _ _ _ _))
  split
  next r h =>
    obtain rfl := fitOpt_eq h
    exact Or.inl (footer_isSubstr_of_mem
      (footer_mem_filter_chart (footer_mem_compact_set2 _ _ _ _ _ _)))
  split
  next r h =>
    obtain rfl := fitOpt_eq h
    exact Or.inl (footer_isSubstr_of_mem
      (footer_mem_filter_money (footer_mem_filter_chart
        (footer_mem_compact_set2 _ _ _ _ _ _))))
  split
  next r h =>
    obtain rfl := fitOpt_eq h
    exact Or.inl (footer_isSubstr_of_mem
      (footer_mem_filter_emoji (footer_mem_filter_money
        (footer_mem_filter_chart (footer_mem_compact_set2 _ _ _ _ _ _)))))
  exact Or.inr rfl

/-! ## Normalizer bugs (C3, C4) -/

/-- C3: at the failing input `"@Polymar@Polymarket ket"`, removing the
mention occurrence (together with its trailing space) splices a new
`@Polymarket` out of the surrounding characters, and the normalizer
returns `"@Polymarket on @Polymarket"`: the canonical token occurs
twice, and it is the very first token of the output — contradicting
the exactly-once / never-first guarantee (and the function's own
docstring, which promises stray mentions are removed). -/
theorem c3_normalizer_failing_input :
    _sanitize_ai_text "@Polymar@Polymarket ket".data =
        "@Polymarket on @Polymarket".data ∧
    countSub mentionTok (_sanitize_ai_text "@Polymar@Polymarket ket".data) = 2 ∧
    mentionTok.isPrefixOf (_sanitize_ai_text "@Polymar@Polymarket ket".data) =
        true :=
  ⟨rfl, rfl, rfl⟩

/-- C4: the normalizer is not idempotent: at the same failing input the
first pass returns `"@Polymarket on @Polymarket"`, and the second pass
(which removes both occurrences and reinserts one) returns
`"on @Polymarket"`. -/
theorem c4_normalizer_not_idempotent :
    _sanitize_ai_text (_sanitize_ai_text "@Polymar@Polymarket ket".data) ≠
      _sanitize_ai_text "@Polymar@Polymarket ket".data ∧
    _sanitize_ai_text (_sanitize_ai_text "@Polymar@Polymarket ket".data) =
      "on @Polymarket".data :=
  ⟨by decide, rfl⟩

/-! ## Fallback path of `format_tweet` (C8) -/

/-- C8: with the API key missing, `generate_tweet` is `None` for all
arguments, and `format_tweet` composes the fixed template sentence
through the very same `apply_footer_and_trim` pipeline, so its output
obeys the composer's length bound. -/
theorem c8_missing_key_fallback (ai : AIClient) (wallet : Str) (row : Row)
    (client : Option PMClient) (pnl_str : Str) (h : ai.api_key = []) :
    (∀ w p m o : Str, ai.generate_tweet w p m o = none) ∧
    format_tweet ai wallet row client pnl_str =
      apply_footer_and_trim
        (fallbackTemplate
          (display_name_of client
            (if wallet.isEmpty then row.proxyWallet.getD [] else wallet))
          (pyOr row.title (pyOr row.slug "a market".data)))
        (if wallet.isEmpty then row.proxyWallet.getD [] else wallet)
        pnl_str
        (pyOr row.title (pyOr row.slug "a market".data))
        (pyOr row.outcome (pyOr row.oppositeOutcome "?".data)) ∧
    (format_tweet ai wallet row client pnl_str).length ≤ MAX_TWEET_LEN := by
  have hg : ∀ w p m o : Str, ai.generate_tweet w p m o = none := by
    intro w p m o
    simp [AIClient.generate_tweet, h]
  refine ⟨hg, ?_, ?_⟩
  · simp only [format_tweet, hg]
  · exact apply_footer_and_trim_le _ _ _ _ _

/-- Witness for C8 at a concrete unavailable client and concrete row. -/
theorem c8_missing_key_fallback_witness :
    (∀ w p m o : Str,
      AIClient.generate_tweet ⟨[], fun _ _ _ _ => none⟩ w p m o = none) ∧
    format_tweet ⟨[], fun _ _ _ _ => none⟩ "0xabc".data
        ⟨some "BTC up".data, none, some "Yes".data, none, none⟩ none "$5".data =
      apply_footer_and_trim
        (fallbackTemplate
          (display_name_of none
            (if ("0xabc".data : Str).isEmpty then
              (none : Option Str).getD [] else "0xabc".data))
          (pyOr (some "BTC up".data) (pyOr none "a market".data)))
        (if ("0xabc".data : Str).isEmpty then
          (none : Option Str).getD [] else "0xabc".data)
        "$5".data
        (pyOr (some "BTC up".data) (pyOr none "a market".data))
        (pyOr (some "Yes".data) (pyOr none "?".data)) ∧
    (format_tweet ⟨[], fun _ _ _ _ => none⟩ "0xabc".data
        ⟨some "BTC up".data, none, some "Yes".data, none, none⟩ none
        "$5".data).length ≤ MAX_TWEET_LEN :=
  c8_missing_key_fallback ⟨[], fun _ _ _ _ => none⟩ "0xabc".data
    ⟨some "BTC up".data, none, some "Yes".data, none, none⟩ none "$5".data rfl

/-- Witness for C10 at a concrete cache, uid and timestamp. -/
theorem c10_posted_cache_invariant_witness :
    ((PostedCache.init none).add "w:c:e".data (some "42".data) "t0".data).Inv ∧
    ((PostedCache.init none).add "w:c:e".data (some "42".data) "t0".data).contains
        "w:c:e".data = true ∧
    ((PostedCache.init none).add "w:c:e".data (some "42".data) "t0".data).items =
        (PostedCache.init none).items ++ [⟨"w:c:e".data, some "42".data, "t0".data⟩] ∧
    (∀ v : Str,
        ((PostedCache.init none).add "w:c:e".data (some "42".data) "t0".data).contains
            v = true ↔
        ((PostedCache.init none).contains v = true ∨ v = "w:c:e".data)) := by
  have h := c10_posted_cache_invariant (PostedCache.init none)
    (PostedCache.init_inv none) "w:c:e".data (some "42".data) "t0".data
  exact ⟨h.2.1, h.2.2.1, h.2.2.2.1, h.2.2.2.2⟩

/-! ## Character provenance of the composed body (C6) -/

theorem pyLstrip_subset (s : Str) : pyLstrip s ⊆ s :=
  (List.dropWhile_suffix isPySpace).subset

theorem pyRstrip_subset (s : Str) : pyRstrip s ⊆ s :=
  (pyRstrip_isPrefix s).subset

theorem pyStrip_subset (s : Str) : pyStrip s ⊆ s :=
  fun _ h => pyLstrip_subset s (pyRstrip_subset (pyLstrip s) h)

theorem splitlinesGo_subset :
    ∀ (fuel : Nat) (cur s x : Str), x ∈ splitlinesGo fuel cur s →
      x ⊆ cur.reverse ++ s := by
  intro fuel
  induction fuel with
  | zero =>
      intro cur s x hx
      simp only [splitlinesGo, List.mem_singleton] at hx
      subst hx
      exact fun a ha => ha
  | succ fuel ih =>
      intro cur s x hx
      cases s with
      | nil =>
          simp only [splitlinesGo, List.mem_singleton] at hx
          subst hx
          simp
      | cons c rest =>
          simp only [splitlinesGo] at hx
          split at hx
          · by_cases hr : (c = '\r' ∧ rest.head? = some '\n')
            · rw [if_pos hr] at hx
              rcases List.mem_cons.mp hx with hx | hx
              · subst hx
                exact fun a ha => List.mem_append_left _ ha
              · split at hx
                · cases hx
                · intro a ha
                  have ha2 := ih [] _ x hx ha
                  simp only [List.reverse_nil, List.nil_append] at ha2
                  exact List.mem_append_right _
                    (List.mem_cons_of_mem c (List.tail_subset rest ha2))
            · rw [if_neg hr] at hx
              rcases List.mem_cons.mp hx with hx | hx
              · subst hx
                exact fun a ha => List.mem_append_left _ ha
              · split at hx
                · cases hx
                · intro a ha
                  have ha2 := ih [] _ x hx ha
                  simp only [List.reverse_nil, List.nil_append] at ha2
                  exact List.mem_append_right _ (List.mem_cons_of_mem c ha2)
          · intro a ha
            have ha2 := ih (c :: cur) rest x hx ha
            rw [List.reverse_cons, List.append_assoc] at ha2
            simpa using ha2

theorem pySplitlines_subset (s : Str) : ∀ x ∈ pySplitlines s, x ⊆ s := by
  intro x hx
  unfold pySplitlines at hx
  split at hx
  · cases hx
  · simpa using splitlinesGo_subset (s.length + 1) [] s x hx

theorem joinSep_subset {T : Str} (sep : Str) (hsep : sep ⊆ T) :
    ∀ (l : List Str), (∀ x ∈ l, x ⊆ T) → joinSep sep l ⊆ T := by
  intro l
  induction l with
  | nil => intro _ a ha; cases ha
  | cons x t ih =>
      intro hl
      cases t with
      | nil =>
          show x ⊆ T
          exact hl x (List.mem_singleton_self x)
      | cons y r =>
          show x ++ sep ++ joinSep sep (y :: r) ⊆ T
          intro a ha
          rcases List.mem_append.mp ha with ha | ha
          · rcases List.mem_append.mp ha with ha | ha
            · exact hl x (List.mem_cons_self x _) ha
            · exact hsep ha
          · exact ih (fun z hz => hl z (List.mem_cons_of_mem x hz)) ha

theorem sentSplitGo_subset :
    ∀ (fuel : Nat) (cur s x : Str), x ∈ sentSplitGo fuel cur s →
      x ⊆ cur.reverse ++ s := by
  intro fuel
  induction fuel with
  | zero =>
      intro cur s x hx
      simp only [sentSplitGo, List.mem_singleton] at hx
      subst hx
      exact fun a ha => ha
  | succ fuel ih =>
      intro cur s x hx
      match s with
      | [] =>
          simp only [sentSplitGo, List.mem_singleton] at hx
          subst hx
          simp
      | [c] =>
          simp only [sentSplitGo, List.mem_singleton] at hx
          subst hx
          intro a ha
          rw [List.reverse_cons] at ha
          simpa using ha
      | c :: d :: rest =>
          simp only [sentSplitGo] at hx
          split at hx
          · rcases List.mem_cons.mp hx with hx | hx
            · subst hx
              intro a ha
              rw [List.reverse_cons] at ha
              rcases List.mem_append.mp ha with ha | ha
              · exact List.mem_append_left _ ha
              · have hac : a = c := by simpa using ha
                subst hac
                exact List.mem_append_right _ (List.mem_cons_self a _)
            · intro a ha
              have ha2 := ih [] _ x hx ha
              simp only [List.reverse_nil, List.nil_append] at ha2
              have ha3 := (List.dropWhile_suffix isPySpace).subset ha2
              exact List.mem_append_right _ (List.mem_cons_of_mem c ha3)
          · intro a ha
            have ha2 := ih (c :: cur) (d :: rest) x hx ha
            rw [List.reverse_cons, List.append_assoc] at ha2
            simpa using ha2

theorem sentSplit_subset (s : Str) : ∀ x ∈ sentSplit s, x ⊆ s := by
  intro x hx
  simpa using sentSplitGo_subset (s.length + 1) [] s x hx

theorem splitChGo_subset (ch : Char) :
    ∀ (s cur x : Str), x ∈ splitChGo ch cur s → x ⊆ cur.reverse ++ s := by
  intro s
  induction s with
  | nil =>
      intro cur x hx
      simp only [splitChGo, List.mem_singleton] at hx
      subst hx
      simp
  | cons c rest ih =>
      intro cur x hx
      simp only [splitChGo] at hx
      split at hx
      · rcases List.mem_cons.mp hx with hx | hx
        · subst hx
          exact fun a ha => List.mem_append_left _ ha
        · intro a ha
          have ha2 := ih [] x hx ha
          simp only [List.reverse_nil, List.nil_append] at ha2
          exact List.mem_append_right _ (List.mem_cons_of_mem c ha2)
      · intro a ha
        have ha2 := ih (c :: cur) x hx ha
        rw [List.reverse_cons, List.append_assoc] at ha2
        simpa using ha2

theorem pySplitCh_subset (ch : Char) (s : Str) : ∀ x ∈ pySplitCh ch s, x ⊆ s := by
  intro x hx
  simpa using splitChGo_subset ch s [] x hx

theorem reverse_dropWhile_subset (p : Char → Bool) (l : Str) :
    (l.reverse.dropWhile p).reverse ⊆ l := by
  intro a ha
  rw [List.mem_reverse] at ha
  have h2 := (List.dropWhile_suffix p).subset ha
  rwa [List.mem_reverse] at h2

theorem reverse_takeWhile_subset (p : Char → Bool) (l : Str) :
    (l.reverse.takeWhile p).reverse ⊆ l := by
  intro a ha
  rw [List.mem_reverse] at ha
  have h2 := (List.takeWhile_prefix p).subset ha
  rwa [List.mem_reverse] at h2

theorem matchTrailingPunct_subset {s base punct : Str}
    (h : matchTrailingPunct s = some (base, punct)) : base ⊆ s ∧ punct ⊆ s := by
  have hgen : ∀ (s1 : Str), s1 ⊆ s →
      (if ((s1.reverse.takeWhile isTermPunct).reverse.isEmpty ||
            (s1.reverse.dropWhile isTermPunct).reverse.contains '\n') = true
        then (none : Option (Str × Str))
        else some ((s1.reverse.dropWhile isTermPunct).reverse,
          (s1.reverse.takeWhile isTermPunct).reverse)) = some (base, punct) →
      base ⊆ s ∧ punct ⊆ s := by
    intro s1 hs1 h1
    split at h1
    · cases h1
    · simp only [Option.some.injEq, Prod.mk.injEq] at h1
      obtain ⟨hb, hp⟩ := h1
      subst hb
      subst hp
      exact ⟨fun a ha => hs1 (reverse_dropWhile_subset _ _ ha),
        fun a ha => hs1 (reverse_takeWhile_subset _ _ ha)⟩
  exact hgen (if s.getLast? = some '\n' then s.dropLast else s)
    (by split
        · exact List.dropLast_subset s
        · exact fun a ha => ha)
    h

theorem stripTrailingOn_cases (s : Str) :
    stripTrailingOn s = s ∨
    stripTrailingOn s = pyRstrip ((pyRstrip s).reverse.drop 2).reverse := by
  simp only [stripTrailingOn]
  split
  · split
    · exact Or.inl rfl
    · exact Or.inr rfl
  · exact Or.inl rfl

theorem drop_reverse_subset (n : Nat) (l : Str) : (l.reverse.drop n).reverse ⊆ l := by
  intro a ha
  rw [List.mem_reverse] at ha
  have h2 := List.drop_subset n l.reverse ha
  rwa [List.mem_reverse] at h2

theorem stripTrailingOn_subset (s : Str) : stripTrailingOn s ⊆ s := by
  rcases stripTrailingOn_cases s with h | h <;> rw [h]
  · exact fun a ha => ha
  · intro a ha
    exact pyRstrip_subset s (drop_reverse_subset 2 (pyRstrip s)
      (pyRstrip_subset _ ha))

theorem insertTokSent_subset (s0 : Str) : insertTokSent s0 ⊆ s0 ++ onTok := by
  unfold insertTokSent
  split
  next base punct hm =>
    have hb : base ⊆ s0 := (matchTrailingPunct_subset hm).1
    have hp : punct ⊆ s0 := (matchTrailingPunct_subset hm).2
    intro a ha
    rcases List.mem_append.mp ha with ha | ha
    · rcases List.mem_append.mp ha with ha | ha
      · exact List.mem_append_left _
          (hb (pyRstrip_subset base (stripTrailingOn_subset _ ha)))
      · exact List.mem_append_right _ ha
    · exact List.mem_append_left _ (hp ha)
  next hm =>
    intro a ha
    rcases List.mem_append.mp ha with ha | ha
    · exact List.mem_append_left _
        (pyRstrip_subset s0 (stripTrailingOn_subset _ ha))
    · exact List.mem_append_right _ ha

theorem dropPrefixCI_suffix {pat s t : Str} (h : dropPrefixCI pat s = some t) :
    t <:+ s := by
  unfold dropPrefixCI at h
  split at h
  · cases h
    exact List.drop_suffix _ _
  · cases h

theorem wsPlus_suffix {s t : Str} (h : wsPlus s = some t) : t <:+ s := by
  unfold wsPlus at h
  split at h
  · cases h
  · cases h
    exact List.dropWhile_suffix isPySpace

theorem vsTailFrom_suffix {t r : Str} (h : vsTailFrom t = some r) : r <:+ t := by
  unfold vsTailFrom at h
  rw [Option.bind_eq_some] at h
  obtain ⟨t1, ht1, h⟩ := h
  rw [Option.bind_eq_some] at h
  obtain ⟨t2, ht2, h⟩ := h
  have h12 : t2 <:+ t := (dropPrefixCI_suffix ht2).trans (wsPlus_suffix ht1)
  cases t2 with
  | nil =>
      have h2 : some ([] : Str) = some r := h
      cases h2
      exact List.nil_suffix
  | cons d t2b =>
      have h2 : (if isWordChar d = true then (none : Option Str)
          else some (d :: t2b)) = some r := h
      split at h2
      · cases h2
      · cases h2
        exact h12

theorem matchVsTail_suffix {s r : Str} (h : matchVsTail s = some r) : r <:+ s := by
  unfold matchVsTail at h
  rw [Option.bind_eq_some] at h
  obtain ⟨s1, hs1, h⟩ := h
  have hsuf : s1 <:+ s := dropPrefixCI_suffix hs1
  split at h
  · split at h
    next r2 hr2 =>
      cases h
      exact ((vsTailFrom_suffix hr2).trans (List.tail_suffix s1)).trans hsuf
    next hr2 => exact (vsTailFrom_suffix h).trans hsuf
  · exact (vsTailFrom_suffix h).trans hsuf

theorem vsMiddleGo_suffix :
    ∀ (fuel : Nat) (b : Bool) (s r : Str), vsMiddleGo fuel b s = some r →
      r <:+ s := by
  intro fuel
  induction fuel with
  | zero => intro b s r h; cases h
  | succ fuel ih =>
      intro b s r h
      simp only [vsMiddleGo] at h
      split at h
      next r2 hr2 =>
        cases h
        split at hr2
        · exact matchVsTail_suffix hr2
        · cases hr2
      next hr2 =>
        cases s with
        | nil =>
            have h2 : (none : Option Str) = some r := h
            cases h2
        | cons c rest =>
            have h2 : (if isTermPunct c = true then (none : Option Str)
                else vsMiddleGo fuel (isWordChar c) rest) = some r := h
            split at h2
            · cases h2
            · exact (ih _ rest r h2).trans (List.suffix_cons c rest)

theorem vsFix1Go_subset {T market : Str} (hm : market ⊆ T) (htok : onTok ⊆ T) :
    ∀ (fuel : Nat) (b : Bool) (s : Str), s ⊆ T → vsFix1Go market fuel b s ⊆ T := by
  have hon3 : ("on ".data : Str) ⊆ onTok := by decide
  intro fuel
  induction fuel with
  | zero =>
      intro b s hs
      simpa only [vsFix1Go] using hs
  | succ fuel ih =>
      intro b s hs
      cases s with
      | nil =>
          simp only [vsFix1Go]
          exact fun a ha => absurd ha (List.not_mem_nil a)
      | cons c rest =>
          have hrest : rest ⊆ T := fun a ha => hs (List.mem_cons_of_mem c ha)
          have hc : c ∈ T := hs (List.mem_cons_self c rest)
          simp only [vsFix1Go]
          split
          · split
            next r hr =>
              rw [Option.bind_eq_some] at hr
              obtain ⟨s1, hs1, hr⟩ := hr
              rw [Option.bind_eq_some] at hr
              obtain ⟨s2, hs2, hr⟩ := hr
              have hrs : r <:+ c :: rest :=
                ((vsMiddleGo_suffix _ _ _ _ hr).trans (wsPlus_suffix hs2)).trans
                  (dropPrefixCI_suffix hs1)
              have hrT : r ⊆ T := fun a ha => hs (hrs.subset ha)
              intro a ha
              rcases List.mem_append.mp ha with ha | ha
              · rcases List.mem_append.mp ha with ha | ha
                · rcases List.mem_append.mp ha with ha | ha
                  · exact htok (hon3 ha)
                  · exact hm ha
                · exact htok ha
              · exact ih true r hrT ha
            next hr =>
              intro a ha
              rcases List.mem_cons.mp ha with ha | ha
              · subst ha; exact hc
              · exact ih _ rest hrest ha
          · intro a ha
            rcases List.mem_cons.mp ha with ha | ha
            · subst ha; exact hc
            · exact ih _ rest hrest ha

theorem vsFix2Go_subset {T market : Str} (hm : market ⊆ T) (htok : onTok ⊆ T) :
    ∀ (fuel : Nat) (b : Bool) (s : Str), s ⊆ T → vsFix2Go market fuel b s ⊆ T := by
  intro fuel
  induction fuel with
  | zero =>
      intro b s hs
      simpa only [vsFix2Go] using hs
  | succ fuel ih =>
      intro b s hs
      cases s with
      | nil =>
          simp only [vsFix2Go]
          exact fun a ha => absurd ha (List.not_mem_nil a)
      | cons c rest =>
          have hrest : rest ⊆ T := fun a ha => hs (List.mem_cons_of_mem c ha)
          have hc : c ∈ T := hs (List.mem_cons_self c rest)
          simp only [vsFix2Go]
          split
          · split
            next r hr =>
              have hrs : r <:+ c :: rest := matchVsTail_suffix hr
              have hrT : r ⊆ T := fun a ha => hs (hrs.subset ha)
              intro a ha
              rcases List.mem_append.mp ha with ha | ha
              · rcases List.mem_append.mp ha with ha | ha
                · exact hm ha
                · exact htok ha
              · exact ih true r hrT ha
            next hr =>
              intro a ha
              rcases List.mem_cons.mp ha with ha | ha
              · subst ha; exact hc
              · exact ih _ rest hrest ha
          · intro a ha
            rcases List.mem_cons.mp ha with ha | ha
            · subst ha; exact hc
            · exact ih _ rest hrest ha

theorem vsFix1_subset {T market : Str} (hm : market ⊆ T) (htok : onTok ⊆ T)
    {s : Str} (hs : s ⊆ T) : vsFix1 market s ⊆ T :=
  vsFix1Go_subset hm htok _ false s hs

theorem vsFix2_subset {T market : Str} (hm : market ⊆ T) (htok : onTok ⊆ T)
    {s : Str} (hs : s ⊆ T) : vsFix2 market s ⊆ T :=
  vsFix2Go_subset hm htok _ false s hs

theorem aiLineOf_subset (text market : Str) :
    aiLineOf text market ⊆ text ++ market ++ onTok := by
  have htok : onTok ⊆ text ++ market ++ onTok :=
    fun a ha => List.mem_append_right _ ha
  have hmkt : market ⊆ text ++ market ++ onTok :=
    fun a ha => List.mem_append_left _ (List.mem_append_right _ ha)
  have htext : text ⊆ text ++ market ++ onTok :=
    fun a ha => List.mem_append_left _ (List.mem_append_left _ ha)
  have hsep : ([' '] : Str) ⊆ text ++ market ++ onTok := by
    intro a ha
    have h2 : a = ' ' := by simpa using ha
    subst h2
    exact htok (by decide)
  have hlit : ("on @Polymarket".data : Str) ⊆ text ++ market ++ onTok := by
    have hsub : ("on @Polymarket".data : Str) ⊆ onTok := fun a ha =>
      List.mem_cons_of_mem ' ' ha
    exact fun a ha => htok (hsub ha)
  have hai0 : joinSpace (pySplitlines (pyStrip text)) ⊆ text ++ market ++ onTok :=
    joinSep_subset [' '] hsep _
      (fun x hx a ha => htext (pyStrip_subset text (pySplitlines_subset _ x hx ha)))
  have hai1 : ∀ (s0 : Str) (restS : List Str),
      sentSplit (joinSpace (pySplitlines (pyStrip text))) = s0 :: restS →
      joinSpace ((if isSubstr mentionTok s0 then s0 else insertTokSent s0) :: restS)
        ⊆ text ++ market ++ onTok := by
    intro s0 restS heq
    have hs0 : s0 ⊆ text ++ market ++ onTok := by
      intro a ha
      exact hai0 (sentSplit_subset _ s0 (heq ▸ List.mem_cons_self s0 restS) ha)
    apply joinSep_subset [' '] hsep
    intro x hx
    rcases List.mem_cons.mp hx with hx | hx
    · subst hx
      split
      · exact hs0
      · intro a ha
        rcases List.mem_append.mp (insertTokSent_subset s0 ha) with h2 | h2
        · exact hs0 h2
        · exact htok h2
    · intro a ha
      exact hai0 (sentSplit_subset _ x (heq ▸ List.mem_cons_of_mem s0 hx) ha)
  simp only [aiLineOf]
  split
  · split
    · exact hlit
    · split
      · exact hlit
      next s0 restS heq => exact hai1 s0 restS heq
  · refine vsFix2_subset hmkt htok (vsFix1_subset hmkt htok ?_)
    split
    · exact hlit
    · split
      · exact hlit
      next s0 restS heq => exact hai1 s0 restS heq

theorem candidateAt_subset {T : Str} (sentences : List Str)
    (h : ∀ x ∈ sentences, x ⊆ T) (hsp : ([' '] : Str) ⊆ T) (i : Nat) :
    candidateAt sentences i ⊆ T := by
  intro a ha
  exact joinSep_subset [' '] hsp _
    (fun x hx => h x (List.take_subset i sentences hx))
    (pyStrip_subset _ ha)

theorem short_wallet_subset (w : Str) : short_wallet w ⊆ w ++ "…".data := by
  unfold short_wallet
  split
  · exact fun a ha => List.mem_append_left _ ha
  · intro a ha
    rcases List.mem_append.mp ha with ha | ha
    · rcases List.mem_append.mp ha with ha | ha
      · exact List.mem_append_left _ (List.take_subset _ _ ha)
      · exact List.mem_append_right _ ha
    · exact List.mem_append_left _ (List.drop_subset _ _ ha)

theorem splitChGo_append_cons (ch : Char) :
    ∀ (x cur y : Str),
      splitChGo ch cur (x ++ ch :: y) = splitChGo ch cur x ++ splitChGo ch [] y := by
  intro x
  induction x with
  | nil =>
      intro cur y
      show splitChGo ch cur (ch :: y) = splitChGo ch cur [] ++ splitChGo ch [] y
      simp [splitChGo]
  | cons c x ih =>
      intro cur y
      by_cases hc : c = ch
      · subst hc
        have e1 : splitChGo c cur (c :: (x ++ c :: y)) =
            cur.reverse :: splitChGo c [] (x ++ c :: y) := by
          simp [splitChGo]
        have e2 : splitChGo c cur (c :: x) = cur.reverse :: splitChGo c [] x := by
          simp [splitChGo]
        show splitChGo c cur (c :: (x ++ c :: y)) =
          splitChGo c cur (c :: x) ++ splitChGo c [] y
        rw [e1, e2, ih]
        simp
      · show splitChGo ch cur (c :: (x ++ ch :: y)) =
          splitChGo ch cur (c :: x) ++ splitChGo ch [] y
        simp only [splitChGo, if_neg hc]
        exact ih (c :: cur) y

theorem mem_splitNL_joinNL :
    ∀ {L : List Str} {line : Str}, L ≠ [] → line ∈ pySplitCh '\n' (joinNL L) →
      ∃ el ∈ L, line ∈ pySplitCh '\n' el := by
  intro L
  induction L with
  | nil => intro line h; cases h rfl
  | cons x t ih =>
      intro line _ hline
      cases t with
      | nil => exact ⟨x, List.mem_singleton_self x, hline⟩
      | cons y r =>
          have hj : joinNL (x :: y :: r) = x ++ '\n' :: joinNL (y :: r) := by
            show x ++ ['\n'] ++ joinSep ['\n'] (y :: r) = _
            simp [joinNL]
          rw [hj] at hline
          rw [show pySplitCh '\n' (x ++ '\n' :: joinNL (y :: r)) =
              pySplitCh '\n' x ++ pySplitCh '\n' (joinNL (y :: r)) from
            splitChGo_append_cons '\n' x [] (joinNL (y :: r))] at hline
          rcases List.mem_append.mp hline with h | h
          · exact ⟨x, List.mem_cons_self x _, h⟩
          · obtain ⟨el, hel, h2⟩ := ih (by simp) h
            exact ⟨el, List.mem_cons_of_mem x hel, h2⟩

theorem splitChGo_no_sep (ch : Char) :
    ∀ (s cur : Str), (∀ c ∈ s, c ≠ ch) →
      splitChGo ch cur s = [cur.reverse ++ s] := by
  intro s
  induction s with
  | nil => intro cur h; simp [splitChGo]
  | cons c rest ih =>
      intro cur h
      have hc : c ≠ ch := h c (List.mem_cons_self c rest)
      simp only [splitChGo, if_neg hc]
      rw [ih (c :: cur) (fun d hd => h d (List.mem_cons_of_mem c hd))]
      simp

theorem pySplitCh_no_sep {ch : Char} {s : Str} (h : ∀ c ∈ s, c ≠ ch) :
    pySplitCh ch s = [s] := by
  unfold pySplitCh
  rw [splitChGo_no_sep ch s [] h]
  simp

theorem mem_of_isPrefixOf {p l : Str} (hp : p.isPrefixOf l = true) {c : Char}
    (hc : c ∈ p) : c ∈ l :=
  (List.isPrefixOf_iff_prefix.mp hp).subset hc

/-! ## Whitespace words: `str.split()` and `" ".join` round-trip (C6) -/

theorem splitWsGo_good :
    ∀ (s cur : Str), (∀ c ∈ cur, isPySpace c = false) →
      ∀ w ∈ splitWsGo cur s, w ≠ [] ∧ ∀ c ∈ w, isPySpace c = false := by
  intro s
  induction s with
  | nil =>
      intro cur hcur w hw
      simp only [splitWsGo] at hw
      split at hw
      · cases hw
      next hne =>
        rw [List.mem_singleton] at hw
        subst hw
        refine ⟨?_, fun c hc => hcur c (List.mem_reverse.mp hc)⟩
        simp only [ne_eq, List.reverse_eq_nil_iff]
        intro hnil
        rw [hnil] at hne
        simp at hne
  | cons c rest ih =>
      intro cur hcur w hw
      simp only [splitWsGo] at hw
      split at hw
      · split at hw
        · exact ih [] (fun d hd => absurd hd (List.not_mem_nil d)) w hw
        next hne =>
          rcases List.mem_cons.mp hw with hw | hw
          · subst hw
            refine ⟨?_, fun d hd => hcur d (List.mem_reverse.mp hd)⟩
            simp only [ne_eq, List.reverse_eq_nil_iff]
            intro hnil
            rw [hnil] at hne
            simp at hne
          · exact ih [] (fun d hd => absurd hd (List.not_mem_nil d)) w hw
      next hcw =>
        refine ih (c :: cur) ?_ w hw
        intro d hd
        rcases List.mem_cons.mp hd with h | h
        · subst h
          simpa using hcw
        · exact hcur d h

theorem pySplitWs_good (s : Str) :
    ∀ w ∈ pySplitWs s, w ≠ [] ∧ ∀ c ∈ w, isPySpace c = false :=
  splitWsGo_good s [] (fun d hd => absurd hd (List.not_mem_nil d))

theorem splitWsGo_append_nows :
    ∀ (w cur s : Str), (∀ c ∈ w, isPySpace c = false) →
      splitWsGo cur (w ++ s) = splitWsGo (w.reverse ++ cur) s := by
  intro w
  induction w with
  | nil => intro cur s h; simp
  | cons c wrest ih =>
      intro cur s h
      have hc : isPySpace c = false := h c (List.mem_cons_self c wrest)
      show splitWsGo cur (c :: (wrest ++ s)) = _
      rw [show splitWsGo cur (c :: (wrest ++ s)) =
          splitWsGo (c :: cur) (wrest ++ s) from by simp [splitWsGo, hc]]
      rw [ih (c :: cur) s (fun d hd => h d (List.mem_cons_of_mem c hd))]
      simp

theorem pySplitWs_joinSpace :
    ∀ (ws : List Str), (∀ w ∈ ws, w ≠ [] ∧ ∀ c ∈ w, isPySpace c = false) →
      pySplitWs (joinSpace ws) = ws := by
  intro ws
  induction ws with
  | nil => intro _; rfl
  | cons w t ih =>
      intro h
      have hw := h w (List.mem_cons_self w t)
      cases t with
      | nil =>
          show pySplitWs w = [w]
          unfold pySplitWs
          have h2 := splitWsGo_append_nows w [] [] hw.2
          simp only [List.append_nil] at h2
          rw [h2]
          simp only [splitWsGo]
          rw [if_neg (by simp [List.isEmpty_iff, hw.1])]
          simp
      | cons y r =>
          have hj : joinSpace (w :: y :: r) = w ++ ' ' :: joinSpace (y :: r) := by
            show w ++ [' '] ++ joinSep [' '] (y :: r) = _
            simp [joinSpace]
          unfold pySplitWs
          rw [hj, splitWsGo_append_nows w [] _ hw.2]
          simp only [List.append_nil]
          have hsp2 : isPySpace ' ' = true := by decide
          rw [show splitWsGo w.reverse (' ' :: joinSpace (y :: r)) =
              w.reverse.reverse :: splitWsGo [] (joinSpace (y :: r)) from by
            simp [splitWsGo, hsp2, List.isEmpty_iff, hw.1]]
          rw [List.reverse_reverse]
          exact congrArg (w :: ·) (ih (fun x hx => h x (List.mem_cons_of_mem w hx)))

/-! ## The first sentence is never blank (C6) -/

theorem sentSplitGo_ne_nil :
    ∀ (fuel : Nat) (cur s : Str), sentSplitGo fuel cur s ≠ [] := by
  intro fuel
  induction fuel with
  | zero => intro cur s; simp [sentSplitGo]
  | succ fuel ih =>
      intro cur s
      match s with
      | [] => simp [sentSplitGo]
      | [c] => simp [sentSplitGo]
      | c :: d :: rest =>
          simp only [sentSplitGo]
          split
          · simp
          · exact ih (c :: cur) (d :: rest)

theorem sentSplit_ne_nil (s : Str) : sentSplit s ≠ [] :=
  sentSplitGo_ne_nil _ [] s

theorem sentSplitGo_head_cases :
    ∀ (fuel : Nat) (cur s s0 : Str) (t : List Str),
      sentSplitGo fuel cur s = s0 :: t →
      s0 = cur.reverse ++ s ∨ ∃ c ∈ s0, isTermPunct c = true := by
  intro fuel
  induction fuel with
  | zero =>
      intro cur s s0 t h
      cases h
      exact Or.inl rfl
  | succ fuel ih =>
      intro cur s s0 t h
      match s with
      | [] =>
          cases h
          exact Or.inl (by simp)
      | [c] =>
          cases h
          exact Or.inl (by simp)
      | c :: d :: rest =>
          simp only [sentSplitGo] at h
          split at h
          next hcd =>
            cases h
            have h3 : isTermPunct c = true ∧ isPySpace d = true := by
              simpa using hcd
            refine Or.inr ⟨c, ?_, h3.1⟩
            rw [List.reverse_cons]
            exact List.mem_append_right _ (List.mem_singleton_self c)
          · refine (ih (c :: cur) (d :: rest) s0 t h).imp ?_ id
            intro he
            rw [he, List.reverse_cons]
            simp

theorem pyStrip_ne_nil {s : Str} {c : Char} (hc : c ∈ s)
    (hw : isPySpace c = false) : pyStrip s ≠ [] := by
  intro hnil
  have h1 : ∀ d ∈ pyLstrip s, isPySpace d = true := by
    intro d hd
    have h2 : (pyLstrip s).reverse.dropWhile isPySpace = [] := by
      simpa [pyStrip, pyRstrip, List.reverse_eq_nil_iff] using hnil
    exact List.dropWhile_eq_nil_iff.mp h2 d (List.mem_reverse.mpr hd)
  have hc2 : c ∈ s.takeWhile isPySpace ++ s.dropWhile isPySpace := by
    rw [List.takeWhile_append_dropWhile]
    exact hc
  rcases List.mem_append.mp hc2 with h | h
  · exact absurd (List.mem_takeWhile_imp h) (by simp [hw])
  · exact absurd (h1 c h) (by simp [hw])

theorem termPunct_not_space {c : Char} (h : isTermPunct c = true) :
    isPySpace c = false := by
  have h2 : (c = '.' ∨ c = '!') ∨ c = '?' := by
    simpa [isTermPunct] using h
  rcases h2 with (h2 | h2) | h2 <;> subst h2 <;> decide

theorem mention_has_at {s : Str} (h : mentionTok <:+: s) : '@' ∈ s :=
  h.subset (by decide)

theorem aiLineOf_isEmpty_false (text market : Str) :
    (aiLineOf text market).isEmpty = false := by
  have h := tok_infix_aiLineOf text market
  cases hq : aiLineOf text market with
  | nil =>
      rw [hq] at h
      exact absurd (List.infix_nil.mp h) (by decide)
  | cons c rest => rfl

theorem first_sentence_strip_ne (text market : Str) :
    ∀ (s0 : Str) (t : List Str), sentSplit (aiLineOf text market) = s0 :: t →
      pyStrip s0 ≠ [] := by
  intro s0 t h
  rcases sentSplitGo_head_cases _ [] _ s0 t h with he | ⟨c, hc, hp⟩
  · have hat : '@' ∈ s0 := by
      rw [he]
      simpa using mention_has_at (tok_infix_aiLineOf text market)
    exact pyStrip_ne_nil hat (by decide)
  · exact pyStrip_ne_nil hc (termPunct_not_space hp)

/-! ## Identifying the market line in the output (C6) -/

theorem market_line_prefix_append (mk : Str) :
    market_line mk = marketLinePrefix ++ mk := rfl

theorem marketLinesOk_of_elems {market : Str} {L : List Str} (hL : L ≠ [])
    (h : ∀ el ∈ L, GoodEl market el) : MarketLinesOk market (joinNL L) := by
  intro line hline hpref
  obtain ⟨el, helL, hl2⟩ := mem_splitNL_joinNL hL hline
  rcases h el helL with hng | ⟨hnl, mk, hel, hpre⟩
  · exact absurd (pySplitCh_subset '\n' el line hl2
      (mem_of_isPrefixOf hpref (by decide))) hng
  · subst hel
    have hsingle : pySplitCh '\n' (market_line mk) = [market_line mk] :=
      pySplitCh_no_sep (fun c hcz heq => hnl (heq ▸ hcz))
    rw [hsingle, List.mem_singleton] at hl2
    subst hl2
    rw [market_line_prefix_append, List.drop_left]
    exact hpre

theorem mem_joinSep {sep : Str} {c : Char} :
    ∀ {l : List Str}, c ∈ joinSep sep l → c ∈ sep ∨ ∃ x ∈ l, c ∈ x := by
  intro l
  induction l with
  | nil => intro h; cases h
  | cons x t ih =>
      intro h
      cases t with
      | nil => exact Or.inr ⟨x, List.mem_singleton_self x, h⟩
      | cons y r =>
          rcases List.mem_append.mp h with h | h
          · rcases List.mem_append.mp h with h | h
            · exact Or.inr ⟨x, List.mem_cons_self x _, h⟩
            · exact Or.inl h
          · rcases ih h with h | ⟨z, hz, h2⟩
            · exact Or.inl h
            · exact Or.inr ⟨z, List.mem_cons_of_mem x hz, h2⟩

theorem goodEl_of_not_chart {market el : Str} (h : chart_up ∉ el) :
    GoodEl market el := Or.inl h

theorem goodEl_market_full {market : Str} (hm3 : '\n' ∉ market) :
    GoodEl market (market_line market) := by
  refine Or.inr ⟨?_, market, rfl, List.prefix_refl _⟩
  rw [market_line_prefix_append]
  intro hmem
  rcases List.mem_append.mp hmem with h | h
  · exact absurd h (by decide)
  · exact hm3 h

theorem goodEl_market_words {market : Str} {ws : List Str}
    (hws : ws <+: pySplitWs market) :
    GoodEl market (market_line (joinSpace ws)) := by
  have hgood : ∀ w ∈ ws, w ≠ [] ∧ ∀ c ∈ w, isPySpace c = false :=
    fun w hw => pySplitWs_good market w (hws.subset hw)
  refine Or.inr ⟨?_, joinSpace ws, rfl, ?_⟩
  · rw [market_line_prefix_append]
    intro hmem
    rcases List.mem_append.mp hmem with h | h
    · exact absurd h (by decide)
    · rcases mem_joinSep h with h2 | ⟨x, hx, h2⟩
      · simp at h2
      · exact absurd ((hgood x hx).2 '\n' h2) (by decide)
  · rw [pySplitWs_joinSpace ws hgood]
    exact hws

theorem chart_notin_money {p o : Str} (hP : chart_up ∉ p) (hO : chart_up ∉ o) :
    chart_up ∉ money_line p o := by
  intro h
  rcases List.mem_cons.mp h with h | h
  · exact absurd h (by decide)
  rcases List.mem_cons.mp h with h | h
  · exact absurd h (by decide)
  rcases List.mem_append.mp h with h | h
  · rcases List.mem_append.mp h with h | h
    · exact hP h
    · exact absurd h (by decide)
  · exact hO h

theorem chart_notin_link {w : Str} (hW : chart_up ∉ w) :
    chart_up ∉ profile_link w := by
  intro h
  rcases List.mem_append.mp h with h | h
  · exact absurd h (by decide)
  · exact hW h

theorem chart_notin_T {text market : Str} (hT : chart_up ∉ text)
    (hM : chart_up ∉ market) : chart_up ∉ text ++ market ++ onTok := by
  intro h
  rcases List.mem_append.mp h with h | h
  · rcases List.mem_append.mp h with h | h
    · exact hT h
    · exact hM h
  · exact absurd h (by decide)

theorem link_notin_T {text market : Str} (hT : link_emoji ∉ text)
    (hM : link_emoji ∉ market) : link_emoji ∉ text ++ market ++ onTok := by
  intro h
  rcases List.mem_append.mp h with h | h
  · rcases List.mem_append.mp h with h | h
    · exact hT h
    · exact hM h
  · exact absurd h (by decide)

theorem chart_notin_identity {w fs : Str} (hW : chart_up ∉ w) :
    chart_up ∉ (if !w.isEmpty && isSubstr (short_wallet w) fs
      then short_wallet w ++ onTok else tiny_ai) := by
  split
  · intro h
    rcases List.mem_append.mp h with h | h
    · rcases List.mem_append.mp (short_wallet_subset w h) with h | h
      · exact hW h
      · exact absurd h (by decide)
    · exact absurd h (by decide)
  · intro h
    exact absurd h (by decide)

theorem good_build_lines {p o m w a : Str} (hP : chart_up ∉ p)
    (hO : chart_up ∉ o) (hW : chart_up ∉ w) (ha : chart_up ∉ a)
    (hm3 : '\n' ∉ m) : ∀ el ∈ build_lines p o m w a, GoodEl m el := by
  intro el hel
  have hcases : el = pyStrip a ∨ el = [] ∨ el = money_line p o ∨
      el = market_line m ∨ el = [link_emoji] ∨ el = profile_link w ∨
      el = FOOTER ∨ el = CTA := by
    by_cases hw : w.isEmpty = true
    · simp [build_lines, hw] at hel
      tauto
    · simp [build_lines, hw] at hel
      tauto
  rcases hcases with h | h | h | h | h | h | h | h <;> subst h
  · exact goodEl_of_not_chart (fun hc => ha (pyStrip_subset a hc))
  · exact goodEl_of_not_chart (by simp)
  · exact goodEl_of_not_chart (chart_notin_money hP hO)
  · exact goodEl_market_full hm3
  · exact goodEl_of_not_chart (by decide)
  · exact goodEl_of_not_chart (chart_notin_link hW)
  · exact goodEl_of_not_chart (by decide)
  · exact goodEl_of_not_chart (by decide)

theorem good_build_lines_compact {p o m w a : Str} (hP : chart_up ∉ p)
    (hO : chart_up ∉ o) (hW : chart_up ∉ w) (ha : chart_up ∉ a)
    (hm3 : '\n' ∉ m) : ∀ el ∈ build_lines_compact p o m w a, GoodEl m el := by
  intro el hel
  have hcases : el = pyStrip a ∨ el = money_line p o ∨
      el = market_line m ∨ el = [link_emoji] ∨ el = profile_link w ∨
      el = FOOTER ∨ el = CTA := by
    by_cases hw : w.isEmpty = true
    · simp [build_lines_compact, hw] at hel
      tauto
    · simp [build_lines_compact, hw] at hel
      tauto
  rcases hcases with h | h | h | h | h | h | h <;> subst h
  · exact goodEl_of_not_chart (fun hc => ha (pyStrip_subset a hc))
  · exact goodEl_of_not_chart (chart_notin_money hP hO)
  · exact goodEl_market_full hm3
  · exact goodEl_of_not_chart (by decide)
  · exact goodEl_of_not_chart (chart_notin_link hW)
  · exact goodEl_of_not_chart (by decide)
  · exact goodEl_of_not_chart (by decide)

theorem good_set2 {m X : Str} {L : List Str} (h : ∀ el ∈ L, GoodEl m el)
    (hX : GoodEl m X) : ∀ el ∈ L.set 2 X, GoodEl m el := by
  intro el hel
  rcases List.mem_or_eq_of_mem_set hel with h2 | h2
  · exact h el h2
  · exact h2 ▸ hX

theorem good_filter {m : Str} {L : List Str} {P : Str → Bool}
    (h : ∀ el ∈ L, GoodEl m el) : ∀ el ∈ L.filter P, GoodEl m el :=
  fun el hel => h el (List.mem_of_mem_filter hel)

theorem good_tail {m : Str} {L : List Str} (h : ∀ el ∈ L, GoodEl m el) :
    ∀ el ∈ L.tail, GoodEl m el :=
  fun el hel => h el (List.mem_of_mem_tail hel)

theorem set_ne_nil {l : List Str} {n : Nat} {x : Str} (h : l ≠ []) :
    l.set n x ≠ [] := by
  cases l with
  | nil => exact absurd rfl h
  | cons a as => cases n <;> simp [List.set]

/-! ## Word-prefix structure of the shrink loops (C6) -/

theorem shrinkWordsGo_words {lines : List Str} {minWords : Nat} :
    ∀ {fuel : Nat} {ws : List Str} {r : Str},
      shrinkWordsGo lines minWords fuel ws = some r →
      ∃ ws2, ws2 <+: ws ∧ ws2 ≠ [] ∧
        r = joinNL (lines.set 2 (market_line (joinSpace ws2))) := by
  intro fuel
  induction fuel with
  | zero => intro ws r h; cases h
  | succ fuel ih =>
      intro ws r h
      simp only [shrinkWordsGo] at h
      split at h
      next hlen =>
        split at h
        · cases h
          refine ⟨ws, List.prefix_refl ws, ?_, rfl⟩
          intro hnil
          rw [hnil] at hlen
          simp at hlen
        · obtain ⟨ws2, hpre, hne, hr⟩ := ih h
          exact ⟨ws2, hpre.trans (List.dropLast_prefix ws), hne, hr⟩
      · cases h

theorem stepShrink_words {fs r : Str} {lines : List Str} {minWords : Nat}
    {words : List Str} (h : stepShrink fs lines minWords words = some r) :
    ∃ ws2, ws2 <+: words ∧
      r = joinNL (lines.set 2 (market_line (joinSpace ws2))) := by
  unfold stepShrink at h
  split at h
  · cases h
  · obtain ⟨ws2, hp, _, hr⟩ := shrinkWordsGo_words h
    exact ⟨ws2, hp, hr⟩

/-! ## The last-resort loop never returns once the shrink gate failed (C6) -/

theorem fitOpt_none {s : Str} (h : fitOpt s = none) :
    MAX_TWEET_LEN < s.length := by
  unfold fitOpt at h
  split at h
  · cases h
  next h2 => omega

theorem orElse_none {α : Type} {a b : Option α} (h : (a <|> b) = none) :
    a = none ∧ b = none := by
  cases a with
  | none => exact ⟨rfl, by simpa using h⟩
  | some x => simp at h

theorem stepLineDrops_shrink_gate {fs : Str} {a b c d : List Str}
    (h : stepLineDrops fs a b c d = none) (hfs : fs.isEmpty = false) :
    MAX_TWEET_LEN < (joinNL c).length := by
  unfold stepLineDrops at h
  rw [if_neg (by simp [hfs])] at h
  obtain ⟨h1, h2⟩ := orElse_none h
  obtain ⟨h3, h4⟩ := orElse_none h2
  obtain ⟨h5, h6⟩ := orElse_none h4
  exact fitOpt_none h5

theorem short_wallet_length_le (w : Str) : (short_wallet w).length ≤ 11 := by
  unfold short_wallet
  split
  next hcond =>
    have h2 : w = [] ∨ w.length < 10 := by
      simpa [List.isEmpty_iff] using hcond
    rcases h2 with h2 | h2
    · rw [h2]
      simp
    · omega
  next hcond =>
    have h2 : ¬(w = [] ∨ w.length < 10) := by
      simpa [List.isEmpty_iff] using hcond
    have h3 : 10 ≤ w.length := by omega
    simp only [List.length_append, List.length_take, List.length_drop,
      List.length_singleton]
    have h4 : min 6 w.length = 6 := Nat.min_eq_left (by omega)
    omega

theorem identity_length_le (w fs : Str) :
    (if !w.isEmpty && isSubstr (short_wallet w) fs
      then short_wallet w ++ onTok else tiny_ai).length ≤ 26 := by
  split
  · rw [List.length_append]
    have h := short_wallet_length_le w
    have h2 : onTok.length = 15 := rfl
    omega
  · decide

theorem marketline_rstrip_ge (mk : Str) :
    9 ≤ (pyRstrip (market_line mk)).length := by
  have heq : market_line mk = "📊 Market:".data ++ (' ' :: mk) := rfl
  rw [heq]
  have h := length_pyRstrip_le_append "📊 Market:".data (' ' :: mk)
  have h2 : (pyRstrip "📊 Market:".data).length = 9 := by decide
  omega

theorem joinNL_single (x : Str) : joinNL [x] = x := rfl

theorem joinNL_length_eq : ∀ (L : List Str), L ≠ [] →
    (joinNL L).length = (L.map List.length).sum + (L.length - 1) := by
  intro L
  induction L with
  | nil => intro h; cases h rfl
  | cons x t ih =>
      intro _
      cases t with
      | nil => simp [joinNL_single]
      | cons y r =>
          rw [joinNL_cons_length _ _ (by simp), ih (by simp)]
          simp only [List.map_cons, List.sum_cons, List.length_cons]
          omega

theorem attempt_gt {p o m w idv : Str} (hid : idv.length ≤ 26)
    (hgate : MAX_TWEET_LEN <
      (joinNL (idv :: money_line p o ::
        ((if w.isEmpty then ([] : List Str) else [profile_link w]) ++
          [FOOTER, CTA]))).length)
    (mk : Str) :
    MAX_TWEET_LEN <
      (joinNL ((build_lines_compact p o m w minimal_ai).set 2
        (pyRstrip (market_line mk)))).length := by
  have hX := marketline_rstrip_ge mk
  have hF : FOOTER.length = 22 := by decide
  have hC : CTA.length = 54 := by decide
  have hmin : (pyStrip minimal_ai).length = 25 := by decide
  by_cases hw : w.isEmpty = true
  · rw [if_pos hw] at hgate
    have e1 : (build_lines_compact p o m w minimal_ai).set 2
        (pyRstrip (market_line mk)) =
        [pyStrip minimal_ai, money_line p o, pyRstrip (market_line mk),
          FOOTER, CTA] := by
      simp [build_lines_compact, hw, List.set]
    rw [e1, joinNL_length_eq _ (by simp)]
    rw [joinNL_length_eq _ (by simp)] at hgate
    simp only [List.map_cons, List.map_nil, List.map_append, List.sum_cons,
      List.sum_nil, List.sum_append, List.length_cons, List.length_nil,
      List.length_append, List.nil_append] at hgate ⊢
    omega
  · rw [if_neg hw] at hgate
    have e1 : (build_lines_compact p o m w minimal_ai).set 2
        (pyRstrip (market_line mk)) =
        [pyStrip minimal_ai, money_line p o, pyRstrip (market_line mk),
          [link_emoji], profile_link w, FOOTER, CTA] := by
      simp [build_lines_compact, hw, List.set]
    rw [e1, joinNL_length_eq _ (by simp)]
    rw [joinNL_length_eq _ (by simp)] at hgate
    simp only [List.map_cons, List.map_nil, List.map_append, List.sum_cons,
      List.sum_nil, List.sum_append, List.length_cons, List.length_nil,
      List.length_append, List.nil_append] at hgate ⊢
    omega

theorem lastResortGo_none_of_gate {lines : List Str}
    (h : ∀ mk, MAX_TWEET_LEN <
      (joinNL (lines.set 2 (pyRstrip (market_line mk)))).length) :
    ∀ (fuel : Nat) (mk : Str), lastResortGo lines fuel mk = none := by
  intro fuel
  induction fuel with
  | zero => intro mk; rfl
  | succ fuel ih =>
      intro mk
      simp only [lastResortGo]
      rw [if_neg (by have h2 := h mk; omega)]
      split
      · rfl
      · split
        · exact ih _
        · exact ih _

theorem compact_filter2_eq (p o m w a : Str)
    (h1 : chartPrefix.isPrefixOf (pyStrip a) = false)
    (h2 : (pyStrip a != [link_emoji]) = true) :
    ((build_lines_compact p o m w a).filter
        (fun ln => !(chartPrefix.isPrefixOf ln))).filter
      (fun ln => ln != [link_emoji]) =
    pyStrip a :: money_line p o ::
      ((if w.isEmpty then ([] : List Str) else [profile_link w]) ++
        [FOOTER, CTA]) := by
  have hF1 : (!(chartPrefix.isPrefixOf FOOTER)) = true := rfl
  have hC1 : (!(chartPrefix.isPrefixOf CTA)) = true := rfl
  have hG1 : (!(chartPrefix.isPrefixOf [link_emoji])) = true := rfl
  have hF2 : (FOOTER != [link_emoji]) = true := rfl
  have hC2 : (CTA != [link_emoji]) = true := rfl
  have hG2 : (([link_emoji] : Str) != [link_emoji]) = false := rfl
  by_cases hw : w.isEmpty = true
  · simp [build_lines_compact, hw, List.filter_cons, List.filter_append, h1, h2,
      hF1, hC1, hF2, hC2, chart_pred_money, chart_pred_market, emoji_pred_money]
  · simp [build_lines_compact, hw, List.filter_cons, List.filter_append, h1, h2,
      hF1, hC1, hG1, hF2, hC2, hG2, chart_pred_money, chart_pred_market,
      emoji_pred_money, chart_pred_link, emoji_pred_link]

theorem good_linesAfter_chartfilter {p o m w : Str} (hP : chart_up ∉ p)
    (hO : chart_up ∉ o) (hW : chart_up ∉ w) (hm3 : '\n' ∉ m) :
    ∀ el ∈ (lastResortLines (build_lines_compact p o m w minimal_ai)).filter
        (fun ln => !(chartPrefix.isPrefixOf ln)), GoodEl m el := by
  intro el hel
  rw [List.mem_filter] at hel
  obtain ⟨hmem, hpred⟩ := hel
  rcases List.mem_or_eq_of_mem_set hmem with h | h
  · exact good_build_lines_compact hP hO hW (by decide) hm3 el h
  · subst h
    exfalso
    have h3 : chartPrefix.isPrefixOf (pyRstrip (market_line [])) = true := by
      decide
    rw [h3] at hpred
    simp at hpred

theorem not_chart_prefix {l : Str} (h : chart_up ∉ l) :
    chartPrefix.isPrefixOf l = false := by
  cases hq : chartPrefix.isPrefixOf l with
  | false => rfl
  | true =>
      exact absurd (mem_of_isPrefixOf hq (by decide : chart_up ∈ chartPrefix)) h

theorem bne_emoji_of_not_mem {l : Str} (h : link_emoji ∉ l) :
    (l != [link_emoji]) = true := by
  have hne : l ≠ [link_emoji] := by
    intro he
    subst he
    exact h (List.mem_singleton_self _)
  simpa [bne_iff_ne] using hne

/-- C6: during metadata shrinkage the market label is only shortened by
dropping whole trailing words.  On inputs where the four glyph lines are
identifiable (the chart emoji occurs in no input field, the link emoji
does not occur in the body text or the market title, and the market
title has no newline), every line of the output that starts with the
market-line prefix `📊 Market: ` displays a whole-word prefix of the
original market title — unless the composer fell through to the final
hard truncation, which is the single excluded path of the claim. -/
theorem c6_market_shrinks_whole_words
    (text wallet pnl_str market outcome : Str)
    (hT1 : chart_up ∉ text) (hT2 : link_emoji ∉ text)
    (hM1 : chart_up ∉ market) (hM2 : link_emoji ∉ market) (hM3 : '\n' ∉ market)
    (hW1 : chart_up ∉ wallet) (hP1 : chart_up ∉ pnl_str)
    (hO1 : chart_up ∉ outcome) :
    apply_footer_and_trim text wallet pnl_str market outcome =
        truncationFallback pnl_str outcome market wallet ∨
      MarketLinesOk market
        (apply_footer_and_trim text wallet pnl_str market outcome) := by
  have hTsub := aiLineOf_subset text market
  have hchartT : chart_up ∉ text ++ market ++ onTok := chart_notin_T hT1 hM1
  have hlinkT : link_emoji ∉ text ++ market ++ onTok := link_notin_T hT2 hM2
  have hai : (aiLineOf text market).isEmpty = false :=
    aiLineOf_isEmpty_false text market
  obtain ⟨s0, restS, hss⟩ :
      ∃ s0 restS, sentSplit (aiLineOf text market) = s0 :: restS := by
    cases hq : sentSplit (aiLineOf text market) with
    | nil => exact absurd hq (sentSplit_ne_nil _)
    | cons a b => exact ⟨a, b, rfl⟩
  have hsents : ∀ x ∈ s0 :: restS, x ⊆ text ++ market ++ onTok := by
    intro x hx c hc
    exact hTsub (sentSplit_subset _ x (hss ▸ hx) hc)
  have hspT : ([' '] : Str) ⊆ text ++ market ++ onTok := by
    intro a ha
    have h2 : a = ' ' := by simpa using ha
    subst h2
    exact List.mem_append_right _ (by decide)
  have hfs_ne : pyStrip s0 ≠ [] :=
    first_sentence_strip_ne text market s0 restS hss
  have hfs_e : (pyStrip s0).isEmpty = false := by
    cases hq2 : (pyStrip s0).isEmpty with
    | false => rfl
    | true => exact absurd (List.isEmpty_iff.mp hq2) hfs_ne
  have hfs_sub : pyStrip s0 ⊆ text ++ market ++ onTok := fun c hc =>
    hsents s0 (List.mem_cons_self s0 restS) (pyStrip_subset s0 hc)
  have hfs_chart : chart_up ∉ pyStrip s0 := fun hc => hchartT (hfs_sub hc)
  have hfs_link : link_emoji ∉ pyStrip s0 := fun hc => hlinkT (hfs_sub hc)
  have hai_chart : chart_up ∉ aiLineOf text market := fun hc => hchartT (hTsub hc)
  have hsent : (if (aiLineOf text market).isEmpty = true then ([] : List Str)
      else sentSplit (aiLineOf text market)) = s0 :: restS := by
    rw [hai]
    simpa using hss
  simp only [apply_footer_and_trim]
  rw [hsent]
  split
  next hfit =>
    exact Or.inr (marketLinesOk_of_elems
      (List.ne_nil_of_mem (footer_mem_build_lines pnl_str outcome market wallet
        (aiLineOf text market)))
      (good_build_lines hP1 hO1 hW1 hai_chart hM3))
  next hfit =>
  split
  next best hbf =>
    obtain ⟨i, hi⟩ := bestFit_shape hbf
    rw [hi]
    simp only [layoutAt]
    refine Or.inr (marketLinesOk_of_elems
      (List.ne_nil_of_mem (footer_mem_build_lines pnl_str outcome market wallet
        (candidateAt (s0 :: restS) i)))
      (good_build_lines hP1 hO1 hW1 ?_ hM3))
    exact fun hc => hchartT (candidateAt_subset (s0 :: restS) hsents hspT i hc)
  next hbf =>
  split
  next r h1 =>
    rw [stepCompact1_shape h1]
    exact Or.inr (marketLinesOk_of_elems
      (List.ne_nil_of_mem (footer_mem_compact pnl_str outcome market wallet _))
      (good_build_lines_compact hP1 hO1 hW1 hfs_chart hM3))
  next h1 =>
  split
  next r h2 =>
    obtain ⟨ws2, hpre, hr⟩ := stepShrink_words h2
    rw [hr]
    exact Or.inr (marketLinesOk_of_elems
      (set_ne_nil (List.ne_nil_of_mem
        (footer_mem_compact pnl_str outcome market wallet _)))
      (good_set2 (good_build_lines_compact hP1 hO1 hW1 hfs_chart hM3)
        (goodEl_market_words hpre)))
  next h2 =>
  split
  next r h3 =>
    obtain ⟨ws2, hpre, hr⟩ := stepShrink_words h3
    rw [hr]
    exact Or.inr (marketLinesOk_of_elems
      (set_ne_nil (List.ne_nil_of_mem
        (footer_mem_compact pnl_str outcome market wallet _)))
      (good_set2 (good_build_lines_compact hP1 hO1 hW1 hfs_chart hM3)
        (goodEl_market_words hpre)))
  next h3 =>
  split
  next r h4 =>
    have hgood := good_build_lines_compact (m := market)
      (w := wallet) hP1 hO1 hW1 hfs_chart hM3
    have hfoot := footer_mem_compact pnl_str outcome market wallet
      (pyStrip s0)
    rcases stepLineDrops_shape h4 with hr | hr | hr | hr <;> rw [hr]
    · exact Or.inr (marketLinesOk_of_elems
        (List.ne_nil_of_mem (footer_mem_filter_chart hfoot))
        (good_filter hgood))
    · exact Or.inr (marketLinesOk_of_elems
        (List.ne_nil_of_mem
          (footer_mem_filter_emoji (footer_mem_filter_chart hfoot)))
        (good_filter (good_filter hgood)))
    · refine Or.inr (marketLinesOk_of_elems (by simp) ?_)
      intro el hel
      rcases List.mem_cons.mp hel with h5 | h5
      · subst h5
        exact goodEl_of_not_chart (chart_notin_identity hW1)
      · exact good_tail (good_filter (good_filter hgood)) el h5
    · exact Or.inr (marketLinesOk_of_elems
        (List.ne_nil_of_mem (footer_mem_filter_money
          (footer_mem_filter_emoji (footer_mem_filter_chart hfoot))))
        (good_filter (good_filter (good_filter hgood))))
  next h4 =>
  split
  next r h5 =>
    rw [fitOpt_eq h5]
    exact Or.inr (marketLinesOk_of_elems
      (List.ne_nil_of_mem
        (footer_mem_compact pnl_str outcome market wallet minimal_ai))
      (good_build_lines_compact hP1 hO1 hW1 (by decide) hM3))
  next h5 =>
  split
  next r h6 =>
    obtain ⟨ws2, hpre, _, hr⟩ := shrinkWordsGo_words h6
    rw [hr]
    exact Or.inr (marketLinesOk_of_elems
      (set_ne_nil (List.ne_nil_of_mem
        (footer_mem_compact pnl_str outcome market wallet minimal_ai)))
      (good_set2
        (good_build_lines_compact hP1 hO1 hW1 (by decide) hM3)
        (goodEl_market_words hpre)))
  next h6 =>
  split
  next r h7 =>
    exfalso
    have h4b : stepLineDrops (pyStrip s0)
        ((build_lines_compact pnl_str outcome market wallet
            (pyStrip s0)).filter (fun ln => !(chartPrefix.isPrefixOf ln)))
        (((build_lines_compact pnl_str outcome market wallet
            (pyStrip s0)).filter
              (fun ln => !(chartPrefix.isPrefixOf ln))).filter
          (fun ln => ln != [link_emoji]))
        ((if !wallet.isEmpty && isSubstr (short_wallet wallet) (pyStrip s0)
            then short_wallet wallet ++ onTok else tiny_ai) ::
          (((build_lines_compact pnl_str outcome market wallet
              (pyStrip s0)).filter
                (fun ln => !(chartPrefix.isPrefixOf ln))).filter
            (fun ln => ln != [link_emoji])).tail)
        ((((build_lines_compact pnl_str outcome market wallet
            (pyStrip s0)).filter
              (fun ln => !(chartPrefix.isPrefixOf ln))).filter
          (fun ln => ln != [link_emoji])).filter
            (fun ln => !(moneyPrefix.isPrefixOf ln))) = none := h4
    have hgate0 := stepLineDrops_shrink_gate h4b hfs_e
    have hpf1 : chartPrefix.isPrefixOf (pyStrip (pyStrip s0)) = false :=
      not_chart_prefix (fun hc => hfs_chart (pyStrip_subset _ hc))
    have hpf2 : (pyStrip (pyStrip s0) != [link_emoji]) = true :=
      bne_emoji_of_not_mem (fun hc => hfs_link (pyStrip_subset _ hc))
    rw [compact_filter2_eq pnl_str outcome market wallet (pyStrip s0) hpf1 hpf2]
      at hgate0
    simp only [List.tail_cons] at hgate0
    have hall := attempt_gt (m := market)
      (identity_length_le wallet (pyStrip s0)) hgate0
    have hnone := lastResortGo_none_of_gate hall (market.length + 1) market
    rw [hnone] at h7
    cases h7
  next h7 =>
  split
  next r h8 =>
    rw [fitOpt_eq h8]
    exact Or.inr (marketLinesOk_of_elems
      (List.ne_nil_of_mem (footer_mem_filter_chart
        (footer_mem_compact_set2 pnl_str outcome market wallet minimal_ai _)))
      (good_linesAfter_chartfilter hP1 hO1 hW1 hM3))
  next h8 =>
  split
  next r h9 =>
    rw [fitOpt_eq h9]
    exact Or.inr (marketLinesOk_of_elems
      (List.ne_nil_of_mem (footer_mem_filter_money (footer_mem_filter_chart
        (footer_mem_compact_set2 pnl_str outcome market wallet minimal_ai _))))
      (good_filter (good_linesAfter_chartfilter hP1 hO1 hW1 hM3)))
  next h9 =>
  split
  next r h10 =>
    rw [fitOpt_eq h10]
    exact Or.inr (marketLinesOk_of_elems
      (List.ne_nil_of_mem (footer_mem_filter_emoji (footer_mem_filter_money
        (footer_mem_filter_chart
          (footer_mem_compact_set2 pnl_str outcome market wallet
            minimal_ai _)))))
      (good_filter (good_filter
        (good_linesAfter_chartfilter hP1 hO1 hW1 hM3))))
  next h10 =>
  exact Or.inl rfl

/-- Witness for C6 at a concrete input on which every hypothesis holds. -/
theorem c6_market_shrinks_whole_words_witness :
    (chart_up ∉ ("Good call.".data : Str) ∧
      link_emoji ∉ ("Good call.".data : Str) ∧
      chart_up ∉ ("Gold up".data : Str) ∧
      link_emoji ∉ ("Gold up".data : Str) ∧
      '\n' ∉ ("Gold up".data : Str) ∧
      chart_up ∉ ([] : Str) ∧
      chart_up ∉ ("$1".data : Str) ∧
      chart_up ∉ ("Yes".data : Str)) ∧
    (apply_footer_and_trim "Good call.".data [] "$1".data "Gold up".data
        "Yes".data =
        truncationFallback "$1".data "Yes".data "Gold up".data [] ∨
      MarketLinesOk "Gold up".data
        (apply_footer_and_trim "Good call.".data [] "$1".data "Gold up".data
          "Yes".data)) :=
  ⟨by decide,
    c6_market_shrinks_whole_words "Good call.".data [] "$1".data
      "Gold up".data "Yes".data (by decide) (by decide) (by decide) (by decide)
      (by decide) (by decide) (by decide) (by decide)⟩

end Polywatch
